import Mathlib

/-!
# Fcircle: content sanitizer, feed fetcher, rate limiter and crawl guard

A shallow embedding of `internal/fetcher/parser.go`, `internal/middleware/ratelimit.go`
and `cmd/fetch/main.go`, followed by the properties established about them.

## Strings

A Go string is a byte sequence that the program reads as UTF-8.  It is modelled by the
sequence of units that Go's decoder yields for it: a valid code point, or a single byte
that belongs to no valid encoding.  Every string operation the program uses (`[]rune`,
`strings.ToValidUTF8`, `strings.TrimSpace`, `strings.ToLower`, `strings.LastIndex`,
`strings.Count`, the regular expression, slicing at an ASCII byte) acts on these units,
and positions are counted in units instead of bytes: the comparisons and slices of the
program are the same in both countings.
-/

namespace Fcircle

/-- One decoded unit of a Go string. -/
inductive GoChar where
  | rune (c : Char)
  | invalid (b : Nat)
deriving DecidableEq, Repr

/-- A Go string, as its sequence of decoded units. -/
abbrev GoString := List GoChar

/-- A string literal of the source. -/
def lit (s : String) : GoString := s.toList.map GoChar.rune

/-- Whether a unit is this ASCII character (a byte comparison of the source). -/
def GoChar.is (g : GoChar) (c : Char) : Bool :=
  match g with
  | .rune d => d == c
  | .invalid _ => false

/-- Go `unicode.IsSpace`: the Unicode White_Space code points. -/
def unicodeIsSpace (c : Char) : Bool :=
  let n := c.toNat
  n == 0x09 || n == 0x0A || n == 0x0B || n == 0x0C || n == 0x0D || n == 0x20 ||
  n == 0x85 || n == 0xA0 || n == 0x1680 || (0x2000 ≤ n && n ≤ 0x200A) ||
  n == 0x2028 || n == 0x2029 || n == 0x202F || n == 0x205F || n == 0x3000

/-- White space as `strings.TrimSpace` sees a unit; an undecodable byte is not white space. -/
def GoChar.isSpace : GoChar → Bool
  | .rune c => unicodeIsSpace c
  | .invalid _ => false

/-- Go `strings.TrimSpace`: all leading and trailing white space removed. -/
def TrimSpace (s : GoString) : GoString :=
  ((s.dropWhile GoChar.isSpace).reverse.dropWhile GoChar.isSpace).reverse

/-- Go `unicode.ToLower` on the code points whose lower case is an ASCII letter
(`A`-`Z`, U+0130 to `i`, U+212A to `k`).  Every other entry of the Unicode case table
maps a non-ASCII code point to a non-ASCII code point; those entries are left out, since
the program only compares lower-cased text with ASCII literals. -/
def unicodeToLower (c : Char) : Char :=
  if 'A'.toNat ≤ c.toNat ∧ c.toNat ≤ 'Z'.toNat then Char.ofNat (c.toNat + 32)
  else if c.toNat = 0x130 then 'i'
  else if c.toNat = 0x212A then 'k'
  else c

/-- Go `strings.ToLower`: each code point lower-cased, an undecodable byte replaced by
U+FFFD. -/
def ToLower (s : GoString) : GoString :=
  s.map fun g =>
    match g with
    | .rune c => .rune (unicodeToLower c)
    | .invalid _ => .rune (Char.ofNat 0xFFFD)

/-- Go `strings.HasPrefix`. -/
def HasPrefix (s p : GoString) : Bool := p.isPrefixOf s

/-- Go `html.EscapeString` on one unit: the five characters `&`, the apostrophe, `<`, `>`
and the double quote are replaced by their entities. -/
def escapeChar (g : GoChar) : GoString :=
  if g.is '&' then lit "&amp;"
  else if g.is (Char.ofNat 39) then lit "&#39;"
  else if g.is '<' then lit "&lt;"
  else if g.is '>' then lit "&gt;"
  else if g.is '"' then lit "&#34;"
  else [g]

/-- Go `html.EscapeString`. -/
def EscapeString (s : GoString) : GoString := s.flatMap escapeChar

/-- Whether a unit is a valid code point. -/
def GoChar.isValid : GoChar → Bool
  | .rune _ => true
  | .invalid _ => false

/-- Go `strings.ToValidUTF8(s, "")`: every byte that is not part of a valid encoding is
removed. -/
def ToValidUTF8 (s : GoString) : GoString := s.filter GoChar.isValid

/-- Go `strings.LastIndex`: the position of the last occurrence of `substr` in `s`, or
`-1` when there is none. -/
def LastIndex (s substr : GoString) : Int :=
  match s with
  | [] => if substr = [] then 0 else -1
  | c :: cs =>
    let r := LastIndex cs substr
    if 0 ≤ r then r + 1
    else if substr.isPrefixOf (c :: cs) then 0
    else -1

/-- The scan behind `strings.Count`: `skip` units of the occurrence just counted are
still to be passed over, so that occurrences do not overlap. -/
def countFrom (substr : GoString) : GoString → Nat → Nat
  | [], _ => 0
  | _ :: cs, skip + 1 => countFrom substr cs skip
  | c :: cs, 0 =>
    if substr.isPrefixOf (c :: cs) then 1 + countFrom substr cs (substr.length - 1)
    else countFrom substr cs 0

/-- Go `strings.Count`: the number of non-overlapping occurrences of `substr` in `s`
(one more than the number of code points when `substr` is empty). -/
def Count (s substr : GoString) : Nat :=
  if substr = [] then s.length + 1 else countFrom substr s 0

/-- The slice `s[i:j]` of the source. -/
def slice (s : GoString) (i j : Nat) : GoString := (s.drop i).take (j - i)

/-! ## The HTML tree (`golang.org/x/net/html`) -/

/-- The `html.NodeType` constants. -/
inductive NodeType where
  | ErrorNode
  | TextNode
  | DocumentNode
  | ElementNode
  | CommentNode
  | DoctypeNode
  | RawNode
deriving DecidableEq, Repr

/-- An `html.Attribute`. -/
structure Attribute where
  Namespace : GoString
  Key : GoString
  Val : GoString
deriving DecidableEq, Repr

/-- An `html.Node` with the list of its children (`FirstChild`, then `NextSibling`). -/
inductive Node where
  | mk (type : NodeType) (Data : GoString) (Attr : List Attribute) (children : List Node)

/-! ## `internal/fetcher/parser.go` -/

/-- The source's `isSafeHref`. -/
def isSafeHref (href : GoString) : Bool :=
  let href := ToLower (TrimSpace href)
  if HasPrefix href (lit "javascript:") || HasPrefix href (lit "data:") then false
  else true

/-- The attribute loop of the anchor case: each attribute whose key is `href` and whose
value is safe is written as ` href="..."`, its value escaped. -/
def writeAttrs (builder : GoString) : List Attribute → GoString
  | [] => builder
  | attr :: rest =>
    if attr.Key = lit "href" && isSafeHref attr.Val then
      writeAttrs (builder ++ (lit " href=\"" ++ EscapeString attr.Val ++ lit "\"")) rest
    else writeAttrs builder rest

mutual
/-- The closure `traverse` of `ExtractCleanHTML`; the `strings.Builder` it writes to is
passed in and returned. -/
def traverse (n : Node) (builder : GoString) : GoString :=
  match n with
  | .mk .TextNode data _ _ => builder ++ data
  | .mk .ElementNode data attr children =>
    if data = lit "a" then
      let builder := builder ++ lit "<a"
      let builder := writeAttrs builder attr
      let builder := builder ++ lit ">"
      let builder := traverseChildren children builder
      builder ++ lit "</a>"
    else if data = lit "br" then builder ++ lit "<br/>"
    else traverseChildren children builder
  | .mk _ _ _ children => traverseChildren children builder
/-- The loop `for c := n.FirstChild; c != nil; c = c.NextSibling { traverse(c) }`. -/
def traverseChildren (cs : List Node) (builder : GoString) : GoString :=
  match cs with
  | [] => builder
  | c :: rest => traverseChildren rest (traverse c builder)
end

/-- The source's `ExtractCleanHTML`.  `Parse` stands for `html.Parse`, which is not part
of the repository: it gives the document node of the parsed input, or nothing when it
reports an error. -/
def ExtractCleanHTML (Parse : GoString → Option Node) (htmlStr : GoString) : GoString :=
  match Parse htmlStr with
  | none => []
  | some doc => TrimSpace (traverse doc [])

/-- The source's `fixBrokenHTML`. -/
def fixBrokenHTML (s : GoString) : GoString :=
  let lastOpen := LastIndex s (lit "<")
  let s :=
    if lastOpen ≠ -1 then
      let lastClose := LastIndex s (lit ">")
      if lastClose < lastOpen then s.take lastOpen.toNat else s
    else s
  let aOpenCount := Count s (lit "<a")
  let aCloseCount := Count s (lit "</a>")
  if aOpenCount > aCloseCount then s ++ lit "</a>" else s

/-- The source's `safeTruncate`; `runes` is `[]rune(cleaned)`, one entry per unit of the
valid string `cleaned`. -/
def safeTruncate (s : GoString) (maxChars : Nat) : GoString :=
  let cleaned := ToValidUTF8 s
  let runes := cleaned
  if runes.length ≤ maxChars then cleaned
  else
    let truncated := runes.take maxChars
    fixBrokenHTML truncated

/-! ### The regular expression `https?://[^\s]*?\.shtml` (Go `regexp`, leftmost-first) -/

/-- The class `\s` of Go regular expressions: tab, line feed, form feed, carriage return
and space. -/
def GoChar.isRegexSpace (g : GoChar) : Bool :=
  g.is '\t' || g.is '\n' || g.is (Char.ofNat 12) || g.is '\r' || g.is ' '

/-- The part `[^\s]*?\.shtml` matched at the head of `s`: the length of the match, the
lazy star taking as few units as possible. -/
def matchTail : GoString → Option Nat
  | [] => none
  | c :: cs =>
    if (lit ".shtml").isPrefixOf (c :: cs) then some 6
    else if c.isRegexSpace then none
    else (matchTail cs).map (· + 1)

/-- The whole expression matched at the head of `s`: the length of the match.  The
greedy `s?` is tried with the `s` first; when `https://` is there the branch without the
`s` cannot match, since `://` would have to start at that `s`. -/
def matchHere (s : GoString) : Option Nat :=
  if (lit "https://").isPrefixOf s then (matchTail (s.drop 8)).map (· + 8)
  else if (lit "http://").isPrefixOf s then (matchTail (s.drop 7)).map (· + 7)
  else none

/-- The successive matches in `s`, which starts at position `off` of the text: `skip`
units of the match just found are still to be passed over, the search for the next match
starting where the previous one ended. -/
def scanMatches : GoString → Nat → Nat → List (Nat × Nat)
  | [], _, _ => []
  | _ :: cs, skip + 1, off => scanMatches cs skip (off + 1)
  | c :: cs, 0, off =>
    match matchHere (c :: cs) with
    | some n => (off, off + n) :: scanMatches cs (n - 1) (off + 1)
    | none => scanMatches cs 0 (off + 1)

/-- Go `urlRegex.FindAllStringIndex(text, -1)`: start and end of every match, leftmost
first and not overlapping. -/
def FindAllStringIndex (text : GoString) : List (Nat × Nat) := scanMatches text 0 0

/-- One round of the loop over `matches` in `insertNewlineAfterURL`: the state is the
builder and `lastIndex`. -/
def insertStep (text : GoString) (st : GoString × Nat) (m : Nat × Nat) : GoString × Nat :=
  let (builder, lastIndex) := st
  let (start, stop) := m
  let builder := builder ++ slice text lastIndex start
  let builder := builder ++ slice text start stop
  let builder :=
    if stop < text.length then
      match text.get? stop with
      | some nextChar =>
        if !nextChar.is ' ' && !nextChar.is '\n' && !nextChar.is '\r' then builder ++ lit " "
        else builder
      | none => builder
    else builder
  (builder, stop)

/-- The source's `insertNewlineAfterURL`. -/
def insertNewlineAfterURL (text : GoString) : GoString :=
  let found := FindAllStringIndex text
  if found.length = 0 then text
  else
    let (builder, lastIndex) := found.foldl (insertStep text) ([], 0)
    if lastIndex < text.length then builder ++ slice text lastIndex text.length
    else builder

/-- The three content steps of `FetchFriendArticles` (lines 98-103): content that is
blank stays empty, other content is cleaned, truncated to 250 and spaced. -/
def articleContent (Parse : GoString → Option Node) (content : GoString) : GoString :=
  if TrimSpace content ≠ [] then
    insertNewlineAfterURL (safeTruncate (ExtractCleanHTML Parse content) 250)
  else []

/-! ### Feed items and the fetch (`FetchFriendArticles`, `getItemContent`) -/

/-- A Go map with string keys: its entries (a nil map has none). -/
abbrev GoMap (V : Type) := List (GoString × V)

/-- The lookup `v, ok := m[key]` of a Go map. -/
def GoMap.get {V : Type} (m : GoMap V) (key : GoString) : Option V :=
  List.lookup key m

/-- An `ext.Extension` of gofeed, as far as the program reads it. -/
structure Extension where
  Name : GoString
  Value : GoString
deriving DecidableEq, Repr

/-- A `gofeed.Person`. -/
structure Person where
  Name : GoString
  Email : GoString
deriving DecidableEq, Repr

/-- A `gofeed.Item`, as far as the program reads it; a time is present when its pointer
is not nil. -/
structure Item where
  Title : GoString
  Description : GoString
  Content : GoString
  Link : GoString
  PublishedParsed : Option Int
  UpdatedParsed : Option Int
  Author : Option Person
  Extensions : GoMap (GoMap (List Extension))
deriving Repr

/-- A `model.Friend`. -/
structure Friend where
  Name : GoString
  RSS : GoString
  Avatar : GoString
  URL : GoString
deriving DecidableEq, Repr

/-- A `model.Article`. -/
structure Article where
  Title : GoString
  Link : GoString
  Published : GoString
  Author : GoString
  Avatar : GoString
  Content : GoString
  Url : GoString
deriving DecidableEq, Repr

/-- The source's `getItemContent`. -/
def getItemContent (item : Item) : GoString :=
  if item.Content ≠ [] then item.Content
  else if item.Description ≠ [] then item.Description
  else
    let summary : Option GoString :=
      match GoMap.get item.Extensions (lit "summary") with
      | some exts =>
        match GoMap.get exts (lit "") with
        | some (v :: _) => some v.Value
        | _ => none
      | none => none
    match summary with
    | some value => value
    | none =>
      match GoMap.get item.Extensions (lit "atom") with
      | some exts =>
        match GoMap.get exts (lit "summary") with
        | some (v :: _) => v.Value
        | _ => []
      | none => []

/-- An `http.Response`, as far as the program reads it. -/
structure HTTPResponse where
  StatusCode : Int
  Body : GoString
deriving DecidableEq, Repr

/-- What one call of `client.Do` gives: a transport error, or a response. -/
inductive Outcome where
  | transportError (err : GoString)
  | response (resp : HTTPResponse)
deriving DecidableEq, Repr

/-- What `FetchFriendArticles` takes from outside the repository: the error of
`http.NewRequest` for a URL (if any), the outcome of `client.Do` in each attempt, the
feed parser, the HTML parser, the clock read for each item, the formatting of a time
in the local zone, and the largest capacity for which the run-time system carries out
`make([]model.Article, 0, n)`.  For a larger `n` the call does not give a slice: the
size of `n` articles exceeds what the run-time system allocates, and `make` panics with
`makeslice: cap out of range`. -/
structure FetchEnv where
  NewRequest : GoString → Option GoString
  Do : Nat → Outcome
  ParseFeed : GoString → Except GoString (List Item)
  Parse : GoString → Option Node
  Now : Nat → Int
  Format : Int → GoString
  MaxCap : Int

/-- The variables of the retry loop: `resp`, `err`, and the number of calls of
`client.Do` made so far. -/
structure LoopState where
  resp : Option HTTPResponse
  err : Option GoString
  attempts : Nat
deriving DecidableEq, Repr

/-- The constant `maxRetry` of `FetchFriendArticles`. -/
def maxRetry : Nat := 2

/-- The retry loop of `FetchFriendArticles` (lines 37-51) from attempt number `attempt`
on, `remaining` being the number of rounds the loop condition still allows. -/
def requestLoop (env : FetchEnv) (url : GoString) : Nat → Nat → LoopState → LoopState
  | 0, _, st => st
  | remaining + 1, attempt, st =>
    match env.NewRequest url with
    | some e => { st with err := some e }
    | none =>
      match env.Do attempt with
      | .response resp => { resp := some resp, err := none, attempts := st.attempts + 1 }
      | .transportError e =>
        requestLoop env url remaining (attempt + 1)
          { resp := none, err := some e, attempts := st.attempts + 1 }

/-- The errors `FetchFriendArticles` returns: the request failed, the status was not 200,
the feed did not parse. -/
inductive FetchError where
  | requestFailed (err : GoString)
  | badStatus (code : Int)
  | parseFailed (err : GoString)
deriving DecidableEq, Repr

/-- How a call of `FetchFriendArticles` ends: with articles and no error, with an error
and no articles, or in a run-time panic. -/
inductive FetchResult where
  | ok (articles : List Article)
  | error (e : FetchError)
  | panic
deriving DecidableEq, Repr

/-- The body of the loop over the feed items (lines 82-113): the article of item number
`i`. -/
def itemArticle (env : FetchEnv) (friend : Friend) (i : Nat) (item : Item) : Article :=
  let pubTime :=
    match item.PublishedParsed with
    | some t => t
    | none =>
      match item.UpdatedParsed with
      | some t => t
      | none => env.Now i
  let formattedTime := env.Format pubTime
  let author :=
    match item.Author with
    | some a => if a.Name ≠ [] then a.Name else friend.Name
    | none => friend.Name
  let content := getItemContent item
  let cleanContent := articleContent env.Parse content
  { Title := item.Title
    Link := item.Link
    Published := formattedTime
    Author := author
    Avatar := friend.Avatar
    Content := cleanContent
    Url := friend.URL }

/-- The loop over the feed items (lines 77-115), from item number `i` on. -/
def collectArticles (env : FetchEnv) (friend : Friend) (maxCount : Int) :
    List Item → Nat → List Article → List Article
  | [], _, articles => articles
  | item :: rest, i, articles =>
    if (i : Int) ≥ maxCount then articles
    else collectArticles env friend maxCount rest (i + 1) (articles ++ [itemArticle env friend i item])

/-- The source's `FetchFriendArticles`: what it returns, and the number of calls of
`client.Do` it has made.  A nil response without an error ends in a panic, and so does
`make([]model.Article, 0, maxCount)` (line 71) when the capacity is negative or larger
than the run-time system allocates. -/
def FetchFriendArticles (env : FetchEnv) (friend : Friend) (maxCount : Int) :
    FetchResult × Nat :=
  let st := requestLoop env friend.RSS (maxRetry + 1) 0 { resp := none, err := none, attempts := 0 }
  match st.err with
  | some e => (.error (.requestFailed e), st.attempts)
  | none =>
    match st.resp with
    | none => (.panic, st.attempts)
    | some resp =>
      if resp.StatusCode ≠ 200 then (.error (.badStatus resp.StatusCode), st.attempts)
      else
        match env.ParseFeed resp.Body with
        | .error e => (.error (.parseFailed e), st.attempts)
        | .ok items =>
          if maxCount < 0 ∨ env.MaxCap < maxCount then (.panic, st.attempts)
          else (.ok (collectArticles env friend maxCount items 0 []), st.attempts)

/-! ## `internal/middleware/ratelimit.go`

A `time.Time` and a `time.Duration` are whole numbers of nanoseconds (`Int`) on one
clock, which a request reads once.
A `sync.Map` is modelled by its list of entries; the handler is run one request at a
time, its `*rate.Limiter` written back to the map after `Allow`. -/

/-- One second, in nanoseconds. -/
def second : Int := 1000000000

/-- Modelled from the spec: the token bucket `rate.Limiter` of `golang.org/x/time/rate`,
which is not part of the repository.  The bucket holds at most `burst` tokens and is
refilled continuously at `limit` tokens per second; `tokens` counts billionths of a
token, so that the refill of a whole number of nanoseconds is exact. -/
structure Limiter where
  limit : Nat
  burst : Nat
  tokens : Nat
  last : Int
deriving DecidableEq, Repr

/-- Modelled from the spec: `rate.NewLimiter(r, b)`, a bucket of capacity `b` that is
fully filled. -/
def NewLimiter (r : Nat) (b : Nat) : Limiter :=
  { limit := r, burst := b, tokens := b * 1000000000, last := 0 }

/-- Modelled from the spec: `Limiter.Allow` at time `t`.  The bucket is refilled for the
time since `last` and capped at its capacity; when a whole token is there it is consumed
and the request allowed, otherwise the bucket is left as it was. -/
def Limiter.Allow (lim : Limiter) (t : Int) : Bool × Limiter :=
  let last := if t < lim.last then t else lim.last
  let elapsed := (t - last).toNat
  let tokens := min (lim.tokens + elapsed * lim.limit) (lim.burst * 1000000000)
  if 1000000000 ≤ tokens then (true, { lim with tokens := tokens - 1000000000, last := t })
  else (false, lim)

/-- A `sync.Map` with string keys: its entries. -/
abbrev SyncMap (V : Type) := List (GoString × V)

/-- The `Load` of a `sync.Map`. -/
def SyncMap.Load {V : Type} (m : SyncMap V) (key : GoString) : Option V :=
  List.lookup key m

/-- The `Delete` of a `sync.Map`. -/
def SyncMap.Delete {V : Type} (m : SyncMap V) (key : GoString) : SyncMap V :=
  m.filter fun e => !(e.1 == key)

/-- The `Store` of a `sync.Map`. -/
def SyncMap.Store {V : Type} (m : SyncMap V) (key : GoString) (v : V) : SyncMap V :=
  (key, v) :: SyncMap.Delete m key

/-- The `LoadOrStore` of a `sync.Map`: the value found, or `v` after storing it. -/
def SyncMap.LoadOrStore {V : Type} (m : SyncMap V) (key : GoString) (v : V) :
    V × Bool × SyncMap V :=
  match SyncMap.Load m key with
  | some actual => (actual, true, m)
  | none => (v, false, SyncMap.Store m key v)

/-- The three package-level maps. -/
structure LimiterState where
  ipLimiters : SyncMap Limiter
  ipLastAccess : SyncMap Int
  ipBlockedUntil : SyncMap Int

/-- The decimal digit `d`. -/
def digitChar (d : Nat) : GoChar := .rune (Char.ofNat (48 + d))

/-- The verb `%d` of `fmt.Sprintf` on an integer. -/
def formatInt (i : Int) : GoString :=
  if i < 0 then lit "-" ++ ((Nat.digits 10 i.natAbs).reverse.map digitChar)
  else if i = 0 then lit "0"
  else (Nat.digits 10 i.toNat).reverse.map digitChar

/-- The source's `makeKey`. -/
def makeKey (ip : GoString) (rate : Int) : GoString :=
  let ip := TrimSpace ip
  ip ++ lit "|" ++ formatInt rate

/-- The source's `getLimiter`: the limiter found for the key, or a new one stored for
it; the second component is `ipLimiters` afterwards. -/
def getLimiter (key : GoString) (perSecond : Int) (maxBurst : Int)
    (ipLimiters : SyncMap Limiter) : Limiter × SyncMap Limiter :=
  match SyncMap.Load ipLimiters key with
  | some limiterRaw => (limiterRaw, ipLimiters)
  | none =>
    let burst := perSecond
    let burst := if burst < 1 then 1 else burst
    let burst := if burst > maxBurst then maxBurst else burst
    let newLimiter := NewLimiter perSecond.toNat burst.toNat
    let (limiterRaw, _, m) := SyncMap.LoadOrStore ipLimiters key newLimiter
    (limiterRaw, m)

/-- What the handler does with the request: the error responses carry their status, the
429 also the block time its message states. -/
inductive Response where
  | abort400
  | abort429 (blockTime : Int)
  | next
deriving DecidableEq, Repr

/-- The constant `maxBurst` of `RateLimit`. -/
def maxBurst : Int := 10

/-- The handler returned by the source's `RateLimit`, on a request of client `ip` that
reads the clock as `now`. -/
def RateLimit (perSecond : Int) (blockDuration : Int) (ip : GoString) (now : Int)
    (s : LimiterState) : Response × LimiterState :=
  if perSecond ≤ 0 then (.abort400, s)
  else
    let key := makeKey ip perSecond
    let afterCheck : Except Int LimiterState :=
      match SyncMap.Load s.ipBlockedUntil key with
      | some blockTime =>
        if now < blockTime then .error blockTime
        else .ok { s with ipBlockedUntil := SyncMap.Delete s.ipBlockedUntil key }
      | none => .ok s
    match afterCheck with
    | .error blockTime => (.abort429 blockTime, s)
    | .ok s =>
      let (limiter, limiters) := getLimiter key perSecond maxBurst s.ipLimiters
      let (allowed, limiter) := limiter.Allow now
      let s := { s with ipLimiters := SyncMap.Store limiters key limiter }
      if !allowed then
        let blockTime := now + blockDuration
        (.abort429 blockTime,
          { s with ipBlockedUntil := SyncMap.Store s.ipBlockedUntil key blockTime })
      else (.next, { s with ipLastAccess := SyncMap.Store s.ipLastAccess key now })

/-- The `Range` callback of `cleanupLimiters`: the expired keys collected so far, after
looking at one more key of `ipLimiters`. -/
def collectExpired (ipLastAccess : SyncMap Int) (expireAfter : Int) (now : Int)
    (expiredKeys : List GoString) (k : GoString) : List GoString :=
  match SyncMap.Load ipLastAccess k with
  | some lastAccess =>
    if now - lastAccess > expireAfter then expiredKeys ++ [k] else expiredKeys
  | none => expiredKeys ++ [k]

/-- The deletion loop of `cleanupLimiters` for one expired key. -/
def deleteKey (s : LimiterState) (k : GoString) : LimiterState :=
  { ipLimiters := SyncMap.Delete s.ipLimiters k
    ipLastAccess := SyncMap.Delete s.ipLastAccess k
    ipBlockedUntil := SyncMap.Delete s.ipBlockedUntil k }

/-- One tick of the source's `cleanupLimiters`, the clock reading `now`. -/
def cleanupTick (expireAfter : Int) (now : Int) (s : LimiterState) : LimiterState :=
  let expiredKeys :=
    (s.ipLimiters.map Prod.fst).foldl (collectExpired s.ipLastAccess expireAfter now) []
  expiredKeys.foldl deleteKey s

/-! ## `cmd/fetch/main.go`

`fetcher.LoadRemoteFriends`, `fetcher.CrawlArticles` and `utils.WriteToFile` are not in
the sources at hand; a cycle is run against their outcomes. -/

/-- The friend directory as loaded. -/
abbrev Friends := List GoString

/-- The result of a crawl. -/
abbrev Digest := List GoString

/-- The outcomes of the three calls a cycle makes. -/
structure Collaborators where
  LoadRemoteFriends : Except GoString Friends
  CrawlArticles : Friends → Digest
  WriteToFile : Digest → Except GoString Unit

/-- The process as a cycle sees it: the busy flag, the digests written so far (newest
first), and the status the process has exited with, if it has. -/
structure Process where
  isFetching : Bool
  written : List Digest
  exitCode : Option Nat
deriving DecidableEq, Repr

/-- The source's `fetchAndSave`.  The deferred function that clears the flag runs when
the function returns; `os.Exit` ends the process at once, without running it. -/
def fetchAndSave (env : Collaborators) (p : Process) : Process :=
  if p.isFetching then p
  else
    let p := { p with isFetching := true }
    match env.LoadRemoteFriends with
    | .error _ => { p with exitCode := some 1 }
    | .ok friends =>
      let result := env.CrawlArticles friends
      match env.WriteToFile result with
      | .error _ => { p with exitCode := some 1 }
      | .ok _ => { p with written := result :: p.written, isFetching := false }

/-- The goroutine started by the source's `ginFetchHandler`; it runs with the busy flag
set, and its deferred function clears the flag on each of its returns. -/
def ginFetchGoroutine (env : Collaborators) (p : Process) : Process :=
  match env.LoadRemoteFriends with
  | .error _ => { p with isFetching := false }
  | .ok friends =>
    let result := env.CrawlArticles friends
    match env.WriteToFile result with
    | .error _ => { p with isFetching := false }
    | .ok _ => { p with written := result :: p.written, isFetching := false }

/-- The source's `ginFetchHandler` up to its response: the status, whether the goroutine
was started, and the process afterwards. -/
def ginFetchHandler (secretKey queryKey : GoString) (p : Process) : Nat × Bool × Process :=
  if queryKey ≠ secretKey then (403, false, p)
  else if p.isFetching then (425, false, p)
  else (200, true, { p with isFetching := true })

/-! ### The crawl guard as a system of atomic steps -/

/-- The two entry points of a crawl cycle. -/
inductive Path where
  | scheduler
  | trigger
deriving DecidableEq, Repr

/-- The locked section at the head of `fetchAndSave` (lines 106-113): whether the caller
goes on to run a cycle, and the process afterwards. -/
def fetchAndSaveGuard (p : Process) : Bool × Process :=
  if p.isFetching then (false, p)
  else (true, { p with isFetching := true })

/-- What `fetchAndSave` does once it has set the flag (lines 115-136). -/
def fetchAndSaveBody (env : Collaborators) (p : Process) : Process :=
  match env.LoadRemoteFriends with
  | .error _ => { p with exitCode := some 1 }
  | .ok friends =>
    let result := env.CrawlArticles friends
    match env.WriteToFile result with
    | .error _ => { p with exitCode := some 1 }
    | .ok _ => { p with written := result :: p.written, isFetching := false }

/-- The crawler between its atomic steps: the process, and the cycles that have set the
busy flag and have not completed yet. -/
structure Crawler where
  proc : Process
  running : List Path
deriving DecidableEq, Repr

/-- The atomic steps: a tick of the scheduler and a request to the trigger endpoint (each
up to the end of its locked section), and the completion of a running cycle of either
path with the outcomes its calls had. -/
inductive Event where
  | schedulerTick
  | triggerRequest (secretKey queryKey : GoString)
  | schedulerDone (env : Collaborators)
  | triggerDone (env : Collaborators)

/-- One atomic step.  A process that has exited takes no step, and a cycle that is not
running does not complete. -/
def Crawler.step (c : Crawler) (e : Event) : Crawler :=
  match c.proc.exitCode with
  | some _ => c
  | none =>
    match e with
    | .schedulerTick =>
      let g := fetchAndSaveGuard c.proc
      { proc := g.2, running := if g.1 then Path.scheduler :: c.running else c.running }
    | .triggerRequest secretKey queryKey =>
      let h := ginFetchHandler secretKey queryKey c.proc
      { proc := h.2.2, running := if h.2.1 then Path.trigger :: c.running else c.running }
    | .schedulerDone env =>
      if Path.scheduler ∈ c.running then
        { proc := fetchAndSaveBody env c.proc, running := c.running.erase Path.scheduler }
      else c
    | .triggerDone env =>
      if Path.trigger ∈ c.running then
        { proc := ginFetchGoroutine env c.proc, running := c.running.erase Path.trigger }
      else c

/-- The crawler when the program starts. -/
def Crawler.init : Crawler :=
  { proc := { isFetching := false, written := [], exitCode := none }, running := [] }

/-- The crawler after a sequence of steps from the start. -/
def Crawler.run (es : List Event) : Crawler := es.foldl Crawler.step Crawler.init

/-! ## Vocabulary of the properties -/

/-- The tree `html.Parse` builds for a fragment of body content: the document, `html`,
an empty `head`, and `body` holding the fragment's nodes. -/
def bodyDocument (nodes : List Node) : Node :=
  .mk .DocumentNode [] [] [.mk .ElementNode (lit "html") []
    [.mk .ElementNode (lit "head") [] [], .mk .ElementNode (lit "body") [] nodes]]

/-- Whether `s` begins with one of the whitelisted tags: `<a>`, `<a href="`, `</a>`,
`<br/>`. -/
def startsWhitelistedTag (s : GoString) : Bool :=
  HasPrefix s (lit "<a>") || HasPrefix s (lit "<a href=\"") || HasPrefix s (lit "</a>") ||
    HasPrefix s (lit "<br/>")

/-- Whether every `<` of `s` is the start of a whitelisted tag. -/
def onlyWhitelistedTags : GoString → Bool
  | [] => true
  | c :: cs => (!c.is '<' || startsWhitelistedTag (c :: cs)) && onlyWhitelistedTags cs

/-- The unit `<`. -/
def ltChar : GoChar := .rune '<'

/-- The unit `>`. -/
def gtChar : GoChar := .rune '>'

/-- The text has an unterminated tag: a `<` with no `>` anywhere after it. -/
def Unterminated (r : GoString) : Prop :=
  ∃ a b, r = a ++ ltChar :: b ∧ gtChar ∉ b

/-- Every `<` of the text is closed by a `>` before any further `<`. -/
def TagsClosed (c : GoString) : Prop :=
  ∀ a b, c = a ++ ltChar :: b → ∃ m rest, b = m ++ gtChar :: rest ∧ ltChar ∉ m

/-- The text after the first step of `fixBrokenHTML`: a last `<` that no `>` follows is
cut off with all that comes after it. -/
def droppedDangling (s : GoString) : GoString :=
  if LastIndex s (lit "<") ≠ -1 then
    (if LastIndex s (lit ">") < LastIndex s (lit "<")
      then s.take (LastIndex s (lit "<")).toNat else s)
  else s

/-- Whether the first `<` or `>` of the text is a `>`. -/
def closesFirst : GoString → Bool
  | [] => false
  | c :: cs => if c = gtChar then true else if c = ltChar then false else closesFirst cs

/-- A check of `TagsClosed`: after every `<` the next `<` or `>` is a `>`. -/
def tagsClosedCheck : GoString → Bool
  | [] => true
  | c :: cs => (!(c == ltChar) || closesFirst cs) && tagsClosedCheck cs

/-- The successive matches lie in order between `lo` and `hi`, none shorter than the 13
units of `http://.shtml`. -/
def MatchesIn (lo hi : Nat) : List (Nat × Nat) → Prop
  | [] => True
  | m :: rest => lo ≤ m.1 ∧ m.1 + 13 ≤ m.2 ∧ m.2 ≤ hi ∧ MatchesIn m.2 hi rest

/-- The state a request works on once the block check has let it through. -/
def afterBlockCheck (s : LimiterState) (key : GoString) : LimiterState :=
  match SyncMap.Load s.ipBlockedUntil key with
  | some _ => { s with ipBlockedUntil := SyncMap.Delete s.ipBlockedUntil key }
  | none => s

/-- The state with no entry at all. -/
def emptyState : LimiterState := { ipLimiters := [], ipLastAccess := [], ipBlockedUntil := [] }

/-- The client of the examples. -/
def clientIP : GoString := lit "10.0.0.1"

/-- The state after two requests of the client at time 0, at rate 2 per second and with
a block of 60 s, starting with no entry. -/
def afterTwoRequests : LimiterState :=
  (RateLimit 2 (60 * second) clientIP 0 (RateLimit 2 (60 * second) clientIP 0 emptyState).2).2

/-- The state after the client's third request, one nanosecond later: the request was
rejected and the client is blocked until `1 + 60 s`. -/
def afterThreeRequests : LimiterState :=
  (RateLimit 2 (60 * second) clientIP 1 afterTwoRequests).2

/-- Whether a unit is `<` or `>`. -/
def GoChar.isAngle (g : GoChar) : Bool := g == ltChar || g == gtChar

/-- The input of the truncation example: an anchor around 300 letters `y`. -/
def anchorInput : GoString :=
  lit "<a href=\"http://x\">" ++ List.replicate 300 (.rune 'y') ++ lit "</a>"

/-- The parse of `anchorInput`. -/
def anchorTree : Node :=
  bodyDocument [.mk .ElementNode (lit "a") [⟨[], lit "href", lit "http://x"⟩]
    [.mk .TextNode (List.replicate 300 (.rune 'y')) [] []]]

/-- Whether the spacing step puts a space before the rest `cs` of the text: there is a
next unit, and it is none of space, line feed and carriage return. -/
def needsSpace : GoString → Bool
  | [] => false
  | d :: _ => !d.is ' ' && !d.is '\n' && !d.is '\r'

/-- The text `cs`, which starts at position `i` of the whole text, with one space put
after every unit at which a match ends (a position of `ends`) when the rest of the text
needs one; every unit of the text is kept, in order. -/
def spacedAfter (ends : List Nat) : GoString → Nat → GoString
  | [], _ => []
  | c :: cs, i =>
    if (i + 1) ∈ ends ∧ needsSpace cs = true then c :: GoChar.rune ' ' :: spacedAfter ends cs (i + 1)
    else c :: spacedAfter ends cs (i + 1)

/-- The words of the pattern `https?://[^\s]*?\.shtml`: `http://` or `https://`, then
units outside the class `\s`, then `.shtml`. -/
def InPattern (w : GoString) : Prop :=
  ∃ mid : GoString, (∀ c ∈ mid, GoChar.isRegexSpace c = false) ∧
    (w = lit "http://" ++ mid ++ lit ".shtml" ∨ w = lit "https://" ++ mid ++ lit ".shtml")

/-- The states the crawler can be in. -/
def Reachable (c : Crawler) : Prop := ∃ es, c = Crawler.run es

/-- An attempt to start a cycle: a step that reaches the check-and-set of the busy flag,
which a trigger request does when its key is the secret. -/
def IsStartAttempt (e : Event) : Prop :=
  e = .schedulerTick ∨ ∃ key, e = .triggerRequest key key

/-- Whether the step starts a cycle. -/
def Crawler.starts (c : Crawler) (e : Event) : Bool :=
  decide ((c.step e).running.length = c.running.length + 1)

/-- The first value of the extension `name` under the prefix `ns`, if the item has that
extension with at least one value. -/
def firstExtensionValue (item : Item) (ns name : GoString) : Option GoString :=
  match GoMap.get item.Extensions ns with
  | some exts =>
    match GoMap.get exts name with
    | some (v :: _) => some v.Value
    | _ => none
  | none => none

/-- An item without content and description whose extension `summary` has one empty
value and whose extension `atom` has the summary `x`. -/
def emptySummaryItem : Item :=
  { Title := lit "t"
    Description := []
    Content := []
    Link := lit "l"
    PublishedParsed := none
    UpdatedParsed := none
    Author := none
    Extensions :=
      [(lit "summary", [(lit "", [{ Name := lit "summary", Value := [] }])]),
       (lit "atom", [(lit "summary", [{ Name := lit "summary", Value := lit "x" }])])] }

/-- The single-flight invariant: at most one cycle is running, the busy flag is set
while one is, and in a live process the flag is set only while one is. -/
def Crawler.Inv (c : Crawler) : Prop :=
  c.running.length ≤ 1 ∧ (c.running ≠ [] → c.proc.isFetching = true) ∧
    (c.proc.exitCode = none → c.proc.isFetching = true → c.running ≠ [])

/-- The largest capacity of a slice of `model.Article` on a 64-bit Linux system: the
run-time system allocates at most `2^48` bytes at once, and an article of seven strings
takes 112 bytes, so the limit is `2^48 / 112`. -/
def maxArticleCap : Int := 2513169434916

/-- An environment of the examples: the request can be built, the first two calls fail
in transport, the third is answered with the status of `third` and the body `feed`, the
feed has the items `items`, the clock stands at 0, and slices are allocated as on a
64-bit Linux system. -/
def retryEnv (third : Int) (items : List Item) : FetchEnv :=
  { NewRequest := fun _ => none
    Do := fun k =>
      if k < 2 then .transportError (lit "timeout")
      else .response { StatusCode := third, Body := lit "feed" }
    ParseFeed := fun _ => .ok items
    Parse := fun _ => none
    Now := fun _ => 0
    Format := fun _ => lit "1970-01-01 08:00:00"
    MaxCap := maxArticleCap }

/-- The friend of the examples. -/
def someFriend : Friend :=
  { Name := lit "n", RSS := lit "https://example.org/feed", Avatar := lit "a", URL := lit "u" }

/-- A feed item of the examples, with the given title. -/
def titledItem (title : GoString) : Item :=
  { Title := title
    Description := []
    Content := []
    Link := lit "l"
    PublishedParsed := none
    UpdatedParsed := none
    Author := none
    Extensions := [] }

/-- The block duration of the trigger endpoint, `24*time.Hour` (`main.go`, line 95). -/
def triggerBlock : Int := 24 * 3600 * second

/-- The expiry passed to `InitRateLimiterCleanup`, `15*time.Minute` (`main.go`, line 29). -/
def sweepTTL : Int := 15 * 60 * second

/-- One minute, in nanoseconds. -/
def minute : Int := 60 * second

/-- The limiter state after two requests of the client to the trigger endpoint at time
0, starting with no entry. -/
def dayTwoRequests : LimiterState :=
  (RateLimit 2 triggerBlock clientIP 0 (RateLimit 2 triggerBlock clientIP 0 emptyState).2).2

/-- The state after the client's third request, one nanosecond later, which is rejected
and blocks the client for 24 hours. -/
def dayBlocked : LimiterState := (RateLimit 2 triggerBlock clientIP 1 dayTwoRequests).2

/-- The state after two more requests of the blocked client, 10 and 20 minutes in. -/
def dayStillBlocked : LimiterState :=
  (RateLimit 2 triggerBlock clientIP (20 * minute)
    (RateLimit 2 triggerBlock clientIP (10 * minute) dayBlocked).2).2

/-- The state after the first sweep, 30 minutes in. -/
def daySwept : LimiterState := cleanupTick sweepTTL (30 * minute) dayStillBlocked

/-- The value of a decimal digit. -/
def digitValue : GoChar → Nat
  | .rune c => c.toNat - 48
  | .invalid _ => 0

/-- The integer a text written by `formatInt` stands for. -/
def parseInt (s : GoString) : Int :=
  match s with
  | [] => 0
  | c :: rest =>
    if c = GoChar.rune '-' then -((Nat.ofDigits 10 ((rest.map digitValue).reverse) : Nat) : Int)
    else ((Nat.ofDigits 10 (((c :: rest).map digitValue).reverse) : Nat) : Int)

/-- What one attribute adds to the opening tag. -/
theorem writeAttrs_eq (attr : List Attribute) (builder : GoString) :
    writeAttrs builder attr = builder ++ (attr.map fun a =>
      if a.Key = lit "href" ∧ isSafeHref a.Val = true
      then lit " href=\"" ++ EscapeString a.Val ++ lit "\"" else []).flatten := by
  induction attr generalizing builder with
  | nil => simp [writeAttrs]
  | cons a rest ih =>
    by_cases h : a.Key = lit "href" ∧ isSafeHref a.Val = true
    · have h' : (decide (a.Key = lit "href") && isSafeHref a.Val) = true := by
        simp [h.1, h.2]
      simp only [writeAttrs, h', if_true, ih, List.map_cons, List.flatten_cons, h, and_self]
      simp [List.append_assoc]
    · have h' : (decide (a.Key = lit "href") && isSafeHref a.Val) = false := by
        by_cases hk : a.Key = lit "href"
        · have : isSafeHref a.Val = false := by
            cases hv : isSafeHref a.Val
            · rfl
            · exact absurd ⟨hk, hv⟩ h
          simp [this]
        · simp [hk]
      simp only [writeAttrs, h', ih, List.map_cons, List.flatten_cons, h, if_false]
      simp

/-- C1, on the code: the parser decodes `&lt;script&gt;alert(1)&lt;/script&gt;` to one
text node whose data is `<script>alert(1)</script>`; the traversal writes that data as
it is, so the cleaned text holds `<script>`, a `<` that starts no whitelisted tag. -/
theorem C1_text_node_markup_is_emitted :
    ExtractCleanHTML
        (fun _ => some (bodyDocument [.mk .TextNode (lit "<script>alert(1)</script>") [] []]))
        (lit "&lt;script&gt;alert(1)&lt;/script&gt;") = lit "<script>alert(1)</script>" ∧
      onlyWhitelistedTags (lit "<script>alert(1)</script>") = false := by
  decide

mutual
theorem traverse_append (n : Node) (builder : GoString) :
    traverse n builder = builder ++ traverse n [] := by
  match n with
  | .mk t data attr children =>
    cases t with
    | TextNode => simp [traverse]
    | ElementNode =>
      unfold traverse
      by_cases ha : data = lit "a"
      · simp only [ha, if_true]
        rw [traverseChildren_append children, writeAttrs_eq,
          traverseChildren_append children (writeAttrs _ _ ++ _), writeAttrs_eq]
        simp [List.append_assoc]
      · by_cases hb : data = lit "br"
        · subst hb
          rw [if_neg ha, if_neg ha, if_pos rfl, if_pos rfl]
          simp
        · simp only [ha, hb, if_false]
          exact traverseChildren_append children builder
    | ErrorNode => unfold traverse; exact traverseChildren_append children builder
    | DocumentNode => unfold traverse; exact traverseChildren_append children builder
    | CommentNode => unfold traverse; exact traverseChildren_append children builder
    | DoctypeNode => unfold traverse; exact traverseChildren_append children builder
    | RawNode => unfold traverse; exact traverseChildren_append children builder
theorem traverseChildren_append (cs : List Node) (builder : GoString) :
    traverseChildren cs builder = builder ++ traverseChildren cs [] := by
  match cs with
  | [] => simp [traverseChildren]
  | c :: rest =>
    unfold traverseChildren
    rw [traverseChildren_append rest, traverse_append c,
      traverseChildren_append rest (traverse c [])]
    simp [List.append_assoc]
end

theorem split_cases {x y : GoChar} {a b a' b' : GoString}
    (h : a ++ x :: b = a' ++ y :: b') :
    (a = a' ∧ x = y ∧ b = b') ∨ (∃ c, a' = a ++ x :: c ∧ b = c ++ y :: b') ∨
      (∃ c, a = a' ++ y :: c ∧ b' = c ++ x :: b) := by
  rcases List.append_eq_append_iff.mp h with ⟨c, hc, hb⟩ | ⟨c, hc, hb⟩
  · cases c with
    | nil =>
      simp only [List.nil_append, List.cons.injEq] at hb
      simp only [List.append_nil] at hc
      exact Or.inl ⟨hc.symm, hb.1, hb.2⟩
    | cons z c =>
      simp only [List.cons_append, List.cons.injEq] at hb
      exact Or.inr (Or.inl ⟨c, by rw [hc, hb.1], hb.2⟩)
  · cases c with
    | nil =>
      simp only [List.nil_append, List.cons.injEq] at hb
      simp only [List.append_nil] at hc
      exact Or.inl ⟨hc, hb.1.symm, hb.2.symm⟩
    | cons z c =>
      simp only [List.cons_append, List.cons.injEq] at hb
      exact Or.inr (Or.inr ⟨c, by rw [hc, hb.1], hb.2⟩)

theorem ltChar_ne_gtChar : ltChar ≠ gtChar := by decide

/-- A text that ends with `>` has no unterminated tag. -/
theorem not_unterminated_append_gt (s : GoString) : ¬ Unterminated (s ++ [gtChar]) := by
  rintro ⟨a, b, h, hb⟩
  have h' : s ++ gtChar :: [] = a ++ ltChar :: b := h
  rcases split_cases h' with ⟨_, hx, _⟩ | ⟨c, _, hc⟩ | ⟨c, _, hc⟩
  · exact ltChar_ne_gtChar hx.symm
  · cases c <;> simp at hc
  · exact hb (by simp [hc])

theorem not_unterminated_append_closing (s : GoString) :
    ¬ Unterminated (s ++ lit "</a>") := by
  have : s ++ lit "</a>" = (s ++ lit "</a") ++ [gtChar] := by
    simp [lit, gtChar]
  rw [this]
  exact not_unterminated_append_gt _

/-! ### `strings.LastIndex` of one unit -/

theorem lastIndex_cons (x c : GoChar) (cs : GoString) :
    LastIndex (c :: cs) [x] =
      if 0 ≤ LastIndex cs [x] then LastIndex cs [x] + 1 else if x = c then 0 else -1 := by
  simp [LastIndex, List.isPrefixOf]

theorem lastIndex_of_not_mem (x : GoChar) (s : GoString) (h : x ∉ s) :
    LastIndex s [x] = -1 := by
  induction s with
  | nil => simp [LastIndex]
  | cons c cs ih =>
    have hc : x ≠ c := fun e => h (by simp [e])
    have hcs : x ∉ cs := fun e => h (by simp [e])
    rw [lastIndex_cons, ih hcs]
    simp [hc]

theorem lastIndex_lt_length (x : GoChar) (s : GoString) :
    LastIndex s [x] < s.length := by
  induction s with
  | nil => simp [LastIndex]
  | cons c cs ih =>
    rw [lastIndex_cons]
    simp only [List.length_cons, Nat.cast_add, Nat.cast_one]
    split
    · omega
    · split <;> omega

theorem lastIndex_append_of_not_mem (x : GoChar) (a b : GoString) (h : x ∉ b) :
    LastIndex (a ++ b) [x] = LastIndex a [x] := by
  induction a with
  | nil => simpa [LastIndex] using lastIndex_of_not_mem x b h
  | cons c cs ih => rw [List.cons_append, lastIndex_cons, lastIndex_cons, ih]

theorem lastIndex_nonneg_of_mem (x : GoChar) (s : GoString) (h : x ∈ s) :
    0 ≤ LastIndex s [x] := by
  induction s with
  | nil => simp at h
  | cons c cs ih =>
    rw [lastIndex_cons]
    split
    · omega
    · rename_i hneg
      have : x ∉ cs := fun e => hneg (ih e)
      have hx : x = c := by
        rcases List.mem_cons.mp h with e | e
        · exact e
        · exact absurd e this
      simp [hx]

theorem lastIndex_append_of_mem (x : GoChar) (a b : GoString) (h : x ∈ b) :
    LastIndex (a ++ b) [x] = a.length + LastIndex b [x] := by
  induction a with
  | nil => simp
  | cons c cs ih =>
    have hb := lastIndex_nonneg_of_mem x b h
    rw [List.cons_append, lastIndex_cons, ih]
    simp only [List.length_cons, Nat.cast_add, Nat.cast_one]
    rw [if_pos (by omega)]
    omega

/-- The position of the last occurrence. -/
theorem lastIndex_last (x : GoChar) (a b : GoString) (h : x ∉ b) :
    LastIndex (a ++ x :: b) [x] = a.length := by
  rw [lastIndex_append_of_mem x a (x :: b) (by simp), lastIndex_cons,
    lastIndex_of_not_mem x b h]
  simp

theorem exists_last_occurrence (x : GoChar) (s : GoString) (h : x ∈ s) :
    ∃ a b, s = a ++ x :: b ∧ x ∉ b := by
  obtain ⟨as, bs, hs, hx⟩ := List.eq_append_cons_of_mem (List.mem_reverse.mpr h)
  refine ⟨bs.reverse, as.reverse, ?_, by simpa using hx⟩
  have := congrArg List.reverse hs
  simpa using this

/-! ### Truncation repair -/

theorem fixBrokenHTML_eq (t : GoString) :
    fixBrokenHTML t =
      if Count (droppedDangling t) (lit "<a") > Count (droppedDangling t) (lit "</a>")
      then droppedDangling t ++ lit "</a>" else droppedDangling t := rfl

/-- The first step of `fixBrokenHTML`: the text up to a dangling last `<`. -/
theorem dropDangling_cases (t : GoString) :
    (ltChar ∉ t ∧
      droppedDangling t = t) ∨
    (∃ a b, t = a ++ ltChar :: b ∧ ltChar ∉ b ∧ gtChar ∈ b ∧
      droppedDangling t = t) ∨
    (∃ a b, t = a ++ ltChar :: b ∧ ltChar ∉ b ∧ gtChar ∉ b ∧
      droppedDangling t = a) := by
  have hl : lit "<" = [ltChar] := rfl
  have hg : lit ">" = [gtChar] := rfl
  unfold droppedDangling
  rw [hl, hg]
  by_cases hlt : ltChar ∈ t
  · obtain ⟨a, b, ht, hb⟩ := exists_last_occurrence ltChar t hlt
    have hopen : LastIndex t [ltChar] = a.length := by
      rw [ht]; exact lastIndex_last ltChar a b hb
    have hne : LastIndex t [ltChar] ≠ -1 := by rw [hopen]; omega
    by_cases hgt : gtChar ∈ b
    · refine Or.inr (Or.inl ⟨a, b, ht, hb, hgt, ?_⟩)
      have hclose : LastIndex t [gtChar] = a.length + LastIndex (ltChar :: b) [gtChar] := by
        rw [ht]; exact lastIndex_append_of_mem gtChar a (ltChar :: b) (by simp [hgt])
      have h1 := lastIndex_nonneg_of_mem gtChar b hgt
      rw [lastIndex_cons, if_pos h1] at hclose
      rw [if_pos hne, if_neg (by rw [hclose, hopen]; omega)]
    · refine Or.inr (Or.inr ⟨a, b, ht, hb, hgt, ?_⟩)
      have hclose : LastIndex t [gtChar] = LastIndex a [gtChar] := by
        rw [ht]
        exact lastIndex_append_of_not_mem gtChar a (ltChar :: b)
          (by simp [hgt, Ne.symm ltChar_ne_gtChar])
      have h1 := lastIndex_lt_length gtChar a
      rw [if_pos hne, if_pos (by rw [hclose, hopen]; exact h1), hopen, ht]
      simp
  · refine Or.inl ⟨hlt, ?_⟩
    rw [lastIndex_of_not_mem ltChar t hlt]
    simp

/-- The repaired text has no unterminated tag when no `<` of the text stands inside an
unterminated tag. -/
theorem fixBrokenHTML_terminated (t : GoString)
    (h : ∀ a b, t = a ++ ltChar :: b → ¬ Unterminated a) :
    ¬ Unterminated (fixBrokenHTML t) := by
  have key : ¬ Unterminated (droppedDangling t) := by
    rcases dropDangling_cases t with ⟨hlt, e⟩ | ⟨a, b, ht, hb, hgt, e⟩ | ⟨a, b, ht, hb, hgt, e⟩
    · rw [e]
      rintro ⟨a, b, ht, _⟩
      exact hlt (by simp [ht])
    · rw [e]
      rintro ⟨a', b', ht', hb'⟩
      rw [ht] at ht'
      rcases split_cases ht' with ⟨_, _, e3⟩ | ⟨c, _, hc⟩ | ⟨c, _, hc⟩
      · exact hb' (e3 ▸ hgt)
      · exact hb (by simp [hc])
      · exact hb' (by simp [hc, hgt])
    · rw [e]
      exact h a b ht
  rw [fixBrokenHTML_eq]
  split
  · exact not_unterminated_append_closing _
  · exact key

theorem fixBrokenHTML_length (t : GoString) : (fixBrokenHTML t).length ≤ t.length + 4 := by
  have key : (droppedDangling t).length ≤ t.length := by
    unfold droppedDangling
    split
    · split
      · simp
      · exact le_refl _
    · exact le_refl _
  rw [fixBrokenHTML_eq]
  split
  · rw [List.length_append]
    have : (lit "</a>").length = 4 := rfl
    omega
  · omega

theorem safeTruncate_length (c : GoString) (maxChars : Nat) :
    (safeTruncate c maxChars).length ≤ maxChars + 4 := by
  unfold safeTruncate
  simp only []
  split
  · omega
  · have := fixBrokenHTML_length ((ToValidUTF8 c).take maxChars)
    have h2 : ((ToValidUTF8 c).take maxChars).length ≤ maxChars := by simp
    omega

theorem tagsClosed_toValidUTF8 (c : GoString) (h : TagsClosed c) :
    TagsClosed (ToValidUTF8 c) := by
  intro a b hab
  unfold ToValidUTF8 at hab
  obtain ⟨l₁, l₂, hc, h1, h2⟩ := List.filter_eq_append_iff.mp hab
  obtain ⟨l₃, l₄, hl2, _, _, h4⟩ := List.filter_eq_cons_iff.mp h2
  obtain ⟨m, rest, hm, hlt⟩ := h (l₁ ++ l₃) l₄ (by rw [hc, hl2, List.append_assoc])
  refine ⟨m.filter GoChar.isValid, rest.filter GoChar.isValid, ?_, ?_⟩
  · rw [← h4, hm, List.filter_append, List.filter_cons]
    simp [gtChar, GoChar.isValid]
  · intro hmem
    exact hlt (List.mem_filter.mp hmem).1

theorem tagsClosed_not_unterminated (c : GoString) (h : TagsClosed c) : ¬ Unterminated c := by
  rintro ⟨a, b, hc, hb⟩
  obtain ⟨m, rest, hm, _⟩ := h a b hc
  exact hb (by simp [hm])

/-- In a text whose tags are closed, what stands before a `<` has no unterminated tag. -/
theorem tagsClosed_before_lt (v a b : GoString) (h : TagsClosed v)
    (hv : v = a ++ ltChar :: b) : ¬ Unterminated a := by
  rintro ⟨a1, b1, ha, hb1⟩
  obtain ⟨m, rest, hm, hlt⟩ := h a1 (b1 ++ ltChar :: b) (by rw [hv, ha]; simp)
  rcases split_cases hm with ⟨_, hx, _⟩ | ⟨c, hc, _⟩ | ⟨c, hc, _⟩
  · exact ltChar_ne_gtChar hx
  · exact hlt (by simp [hc])
  · exact hb1 (by simp [hc])

theorem safeTruncate_terminated (c : GoString) (maxChars : Nat) (h : TagsClosed c) :
    ¬ Unterminated (safeTruncate c maxChars) := by
  have hv := tagsClosed_toValidUTF8 c h
  unfold safeTruncate
  simp only []
  split
  · exact tagsClosed_not_unterminated _ hv
  · apply fixBrokenHTML_terminated
    intro a b hab
    refine tagsClosed_before_lt (ToValidUTF8 c) a (b ++ (ToValidUTF8 c).drop maxChars) hv ?_
    have := List.take_append_drop maxChars (ToValidUTF8 c)
    rw [hab, List.append_assoc, List.cons_append] at this
    exact this.symm

theorem closesFirst_sound (b : GoString) (h : closesFirst b = true) :
    ∃ m rest, b = m ++ gtChar :: rest ∧ ltChar ∉ m := by
  induction b with
  | nil => simp [closesFirst] at h
  | cons c cs ih =>
    unfold closesFirst at h
    by_cases h1 : c = gtChar
    · exact ⟨[], cs, by simp [h1], by simp⟩
    · by_cases h2 : c = ltChar
      · rw [if_neg h1, if_pos h2] at h
        exact absurd h (by decide)
      · simp only [h1, h2, if_false] at h
        obtain ⟨m, rest, hm, hlt⟩ := ih h
        refine ⟨c :: m, rest, by simp [hm], ?_⟩
        simp only [List.mem_cons, not_or]
        exact ⟨fun e => h2 e.symm, hlt⟩

theorem tagsClosedCheck_sound (c : GoString) (h : tagsClosedCheck c = true) :
    TagsClosed c := by
  induction c with
  | nil =>
    intro a b hab
    simp at hab
  | cons x xs ih =>
    simp only [tagsClosedCheck, Bool.and_eq_true, Bool.or_eq_true, Bool.not_eq_true',
      beq_eq_false_iff_ne, ne_eq] at h
    intro a b hab
    cases a with
    | nil =>
      simp only [List.nil_append, List.cons.injEq] at hab
      rcases h.1 with h1 | h1
      · exact absurd hab.1 h1
      · rw [← hab.2]
        exact closesFirst_sound xs h1
    | cons y a =>
      simp only [List.cons_append, List.cons.injEq] at hab
      exact ih h.2 a b hab.2

/-! ### The truncation example -/

theorem articleContent_of_parse (Parse : GoString → Option Node) (raw : GoString) (doc : Node)
    (h : Parse raw = some doc) :
    articleContent Parse raw = articleContent (fun _ => some doc) raw := by
  simp only [articleContent, ExtractCleanHTML, h]

set_option maxRecDepth 100000 in
theorem anchor_content :
    ExtractCleanHTML (fun _ => some anchorTree) anchorInput = anchorInput ∧
    articleContent (fun _ => some anchorTree) anchorInput =
      (lit "<a href=\"http://x\">" ++ List.replicate 231 (.rune 'y') ++ lit "</a") ++
        [gtChar] := by
  decide

set_option maxRecDepth 100000 in
/-- C5 as stated fails on the code: the content of the example has 254 code points, the
250 kept by the truncation and the four of the `</a>` appended after it. -/
theorem C5_content_is_longer_than_250 :
    ¬ ((articleContent (fun _ => some anchorTree) anchorInput).length = 250) := by
  decide

set_option maxRecDepth 100000 in
/-- C5, amended: when the parser gives the anchor tree for the input (whose cleaned text
is the input itself), the content is the opening tag, 231 letters `y` and an appended
`</a>`: 254 code points, ending with the closing anchor tag, with one `<a` and one
`</a>`, and with no unterminated tag. -/
theorem C5_truncated_anchor_is_closed (Parse : GoString → Option Node)
    (h : Parse anchorInput = some anchorTree) :
    ExtractCleanHTML Parse anchorInput = anchorInput ∧
    articleContent Parse anchorInput =
      lit "<a href=\"http://x\">" ++ List.replicate 231 (.rune 'y') ++ lit "</a>" ∧
    (articleContent Parse anchorInput).length = 254 ∧
    Count (articleContent Parse anchorInput) (lit "<a") = 1 ∧
    Count (articleContent Parse anchorInput) (lit "</a>") = 1 ∧
    ¬ Unterminated (articleContent Parse anchorInput) := by
  have e1 : ExtractCleanHTML Parse anchorInput =
      ExtractCleanHTML (fun _ => some anchorTree) anchorInput := by
    simp only [ExtractCleanHTML, h]
  rw [articleContent_of_parse Parse anchorInput anchorTree h, e1]
  refine ⟨anchor_content.1, by decide, by decide, by decide, by decide, ?_⟩
  rw [anchor_content.2]
  exact not_unterminated_append_gt _

/-- C5 with the parser that gives the anchor tree. -/
theorem C5_truncated_anchor_witness :
    (articleContent (fun _ => some anchorTree) anchorInput).length = 254 ∧
      ¬ Unterminated (articleContent (fun _ => some anchorTree) anchorInput) :=
  ⟨(C5_truncated_anchor_is_closed (fun _ => some anchorTree) rfl).2.2.1,
    (C5_truncated_anchor_is_closed (fun _ => some anchorTree) rfl).2.2.2.2.2⟩

/-! ### Length of the content -/

theorem length_le_of_isPrefixOf (p s : GoString) (h : p.isPrefixOf s = true) :
    p.length ≤ s.length :=
  (List.isPrefixOf_iff_prefix.mp h).length_le

theorem matchTail_bounds (s : GoString) (n : Nat) (h : matchTail s = some n) :
    6 ≤ n ∧ n ≤ s.length := by
  induction s generalizing n with
  | nil => simp [matchTail] at h
  | cons c cs ih =>
    unfold matchTail at h
    split at h
    · rename_i hp
      have hl := length_le_of_isPrefixOf _ _ hp
      have h6 : (lit ".shtml").length = 6 := rfl
      simp only [Option.some.injEq] at h
      omega
    · split at h
      · simp at h
      · cases hm : matchTail cs with
        | none => simp [hm] at h
        | some k =>
          simp only [hm, Option.map_some', Option.some.injEq] at h
          have := ih k hm
          simp only [List.length_cons]
          omega

theorem matchHere_bounds (s : GoString) (n : Nat) (h : matchHere s = some n) :
    13 ≤ n ∧ n ≤ s.length := by
  unfold matchHere at h
  split at h
  · rename_i hp
    have hl := length_le_of_isPrefixOf _ _ hp
    have h8 : (lit "https://").length = 8 := rfl
    cases hm : matchTail (s.drop 8) with
    | none => simp [hm] at h
    | some k =>
      simp only [hm, Option.map_some', Option.some.injEq] at h
      have := matchTail_bounds _ k hm
      simp only [List.length_drop] at this
      omega
  · split at h
    · rename_i hp
      have hl := length_le_of_isPrefixOf _ _ hp
      have h7 : (lit "http://").length = 7 := rfl
      cases hm : matchTail (s.drop 7) with
      | none => simp [hm] at h
      | some k =>
        simp only [hm, Option.map_some', Option.some.injEq] at h
        have := matchTail_bounds _ k hm
        simp only [List.length_drop] at this
        omega
    · simp at h

theorem matchesIn_mono (lo lo' hi : Nat) (L : List (Nat × Nat)) (h : lo' ≤ lo)
    (hL : MatchesIn lo hi L) : MatchesIn lo' hi L := by
  cases L with
  | nil => trivial
  | cons m rest => exact ⟨le_trans h hL.1, hL.2⟩

theorem scanMatches_matchesIn (s : GoString) (skip off : Nat) (h : skip ≤ s.length) :
    MatchesIn (off + skip) (off + s.length) (scanMatches s skip off) := by
  induction s generalizing skip off with
  | nil => simp [scanMatches, MatchesIn]
  | cons c cs ih =>
    cases skip with
    | succ k =>
      simp only [scanMatches, List.length_cons]
      have := ih k (off + 1) (by simpa using h)
      have e1 : off + (k + 1) = off + 1 + k := by omega
      have e2 : off + (cs.length + 1) = off + 1 + cs.length := by omega
      rw [e1, e2]
      exact this
    | zero =>
      simp only [scanMatches, List.length_cons]
      have e2 : off + (cs.length + 1) = off + 1 + cs.length := by omega
      cases hm : matchHere (c :: cs) with
      | none =>
        simp only []
        have := ih 0 (off + 1) (Nat.zero_le _)
        rw [e2]
        exact matchesIn_mono _ _ _ _ (by omega) this
      | some n =>
        simp only []
        have hb := matchHere_bounds _ n hm
        simp only [List.length_cons] at hb
        have := ih (n - 1) (off + 1) (by omega)
        have e3 : off + 1 + (n - 1) = off + n := by omega
        rw [e3] at this
        rw [e2]
        exact ⟨by simp, by simp only []; omega, by simp only []; omega, this⟩

theorem matchesIn_count (lo hi : Nat) (L : List (Nat × Nat)) (hL : MatchesIn lo hi L) :
    13 * L.length ≤ hi - lo := by
  induction L generalizing lo with
  | nil => simp
  | cons m rest ih =>
    obtain ⟨h1, h2, h3, h4⟩ := hL
    have := ih m.2 h4
    simp only [List.length_cons]
    omega

theorem slice_length_le (s : GoString) (i j : Nat) : (slice s i j).length ≤ j - i := by
  simp [slice]

theorem insertStep_bounds (text builder : GoString) (lastIndex : Nat) (m : Nat × Nat)
    (h1 : lastIndex ≤ m.1) (h2 : m.1 ≤ m.2) :
    (insertStep text (builder, lastIndex) m).1.length + lastIndex ≤ builder.length + m.2 + 1 ∧
      (insertStep text (builder, lastIndex) m).2 = m.2 := by
  obtain ⟨start, stop⟩ := m
  simp only at h1 h2
  have s1 := slice_length_le text lastIndex start
  have s2 := slice_length_le text start stop
  refine ⟨?_, rfl⟩
  simp only [insertStep]
  split
  · split
    · split
      · simp only [List.length_append]
        have : (lit " ").length = 1 := rfl
        omega
      · simp only [List.length_append]
        omega
    · simp only [List.length_append]
      omega
  · simp only [List.length_append]
    omega

theorem foldl_insertStep_bounds (text : GoString) (L : List (Nat × Nat))
    (builder : GoString) (lastIndex : Nat) (hL : MatchesIn lastIndex text.length L)
    (hle : lastIndex ≤ text.length) :
    (L.foldl (insertStep text) (builder, lastIndex)).1.length + lastIndex ≤
        builder.length + (L.foldl (insertStep text) (builder, lastIndex)).2 + L.length ∧
      (L.foldl (insertStep text) (builder, lastIndex)).2 ≤ text.length := by
  induction L generalizing builder lastIndex with
  | nil => simp [hle]
  | cons m rest ih =>
    obtain ⟨h1, h2, h3, h4⟩ := hL
    have hs := insertStep_bounds text builder lastIndex m h1 (by omega)
    simp only [List.foldl_cons, List.length_cons]
    have e : insertStep text (builder, lastIndex) m =
        ((insertStep text (builder, lastIndex) m).1, m.2) := by
      rw [← hs.2]
    rw [e]
    have := ih (insertStep text (builder, lastIndex) m).1 m.2 h4 h3
    omega

/-- The spacing step adds at most one unit per match, and the matches are at least 13
units each. -/
theorem insertNewlineAfterURL_length (text : GoString) :
    ∃ k, 13 * k ≤ text.length ∧ (insertNewlineAfterURL text).length ≤ text.length + k := by
  have hL : MatchesIn 0 text.length (FindAllStringIndex text) := by
    have := scanMatches_matchesIn text 0 0 (Nat.zero_le _)
    simpa [FindAllStringIndex] using this
  refine ⟨(FindAllStringIndex text).length, by simpa using matchesIn_count _ _ _ hL, ?_⟩
  have hf := foldl_insertStep_bounds text (FindAllStringIndex text) [] 0 hL (Nat.zero_le _)
  unfold insertNewlineAfterURL
  simp only []
  split
  · omega
  · split
    · have := slice_length_le text
        ((FindAllStringIndex text).foldl (insertStep text) ([], 0)).2 text.length
      simp only [List.length_append]
      simp only [List.length_nil] at hf
      omega
    · simp only [List.length_nil] at hf
      omega

set_option maxRecDepth 100000 in
/-- C2 as stated fails on the code: for the cleaned text `<a>` followed by 300 letters,
the truncation keeps 250 code points and the repair appends `</a>`, so the content has
254 code points. -/
theorem C2_content_exceeds_250 :
    ¬ ((insertNewlineAfterURL
        (safeTruncate (lit "<a>" ++ List.replicate 300 (.rune 'y')) 250)).length ≤ 250) := by
  decide

/-- C2, amended: for every cleaned text, the truncated text has at most 254 code points
(the 250 kept and an appended `</a>`) and the content after the spacing step at most
273 (one space for each of at most 19 matched URLs); so has every article content. -/
theorem C2_content_length_bound (c : GoString) :
    (safeTruncate c 250).length ≤ 254 ∧
      (insertNewlineAfterURL (safeTruncate c 250)).length ≤ 273 ∧
      ∀ Parse : GoString → Option Node, (articleContent Parse c).length ≤ 273 := by
  have key : ∀ t : GoString, (safeTruncate t 250).length ≤ 254 ∧
      (insertNewlineAfterURL (safeTruncate t 250)).length ≤ 273 := by
    intro t
    have h1 := safeTruncate_length t 250
    obtain ⟨k, hk, h2⟩ := insertNewlineAfterURL_length (safeTruncate t 250)
    exact ⟨by omega, by omega⟩
  refine ⟨(key c).1, (key c).2, ?_⟩
  intro Parse
  unfold articleContent
  split
  · exact (key _).2
  · simp

set_option maxRecDepth 100000 in
/-- The bound 273 of the amended C2 is attained: `<a>`, 19 times `http://.shtml`, and
one more letter. -/
theorem content_length_273_attained :
    (insertNewlineAfterURL (safeTruncate
      (lit "<a>" ++ (List.replicate 19 (lit "http://.shtml")).flatten ++ lit "x") 250)).length
      = 273 := by
  decide

/-! ### The spacing step changes nothing but spaces -/

theorem take_append_slice (s : GoString) (i j : Nat) (h : i ≤ j) :
    s.take i ++ slice s i j = s.take j := by
  have := List.take_add s i (j - i)
  rw [show i + (j - i) = j by omega] at this
  rw [this]
  rfl

theorem insertStep_filter (p : GoChar → Bool) (hp : p (.rune ' ') = false)
    (text builder : GoString) (lastIndex : Nat) (m : Nat × Nat)
    (h1 : lastIndex ≤ m.1) (h2 : m.1 ≤ m.2)
    (hinv : builder.filter p = (text.take lastIndex).filter p) :
    (insertStep text (builder, lastIndex) m).1.filter p = (text.take m.2).filter p := by
  obtain ⟨start, stop⟩ := m
  simp only at h1 h2
  have e : (builder ++ slice text lastIndex start ++ slice text start stop).filter p =
      (text.take stop).filter p := by
    rw [List.filter_append, List.filter_append, hinv, ← List.filter_append,
      take_append_slice text lastIndex start h1, ← List.filter_append,
      take_append_slice text start stop h2]
  have hsp : (lit " ").filter p = [] := by
    simp [lit, hp]
  simp only [insertStep]
  split
  · split
    · split
      · rw [List.filter_append, e, hsp, List.append_nil]
      · exact e
    · exact e
  · exact e

theorem foldl_insertStep_filter (p : GoChar → Bool) (hp : p (.rune ' ') = false)
    (text : GoString) (L : List (Nat × Nat)) (builder : GoString) (lastIndex : Nat)
    (hL : MatchesIn lastIndex text.length L)
    (hinv : builder.filter p = (text.take lastIndex).filter p) :
    (L.foldl (insertStep text) (builder, lastIndex)).1.filter p =
      (text.take (L.foldl (insertStep text) (builder, lastIndex)).2).filter p := by
  induction L generalizing builder lastIndex with
  | nil => exact hinv
  | cons m rest ih =>
    obtain ⟨h1, h2, h3, h4⟩ := hL
    have hs := insertStep_filter p hp text builder lastIndex m h1 (by omega) hinv
    have e : insertStep text (builder, lastIndex) m =
        ((insertStep text (builder, lastIndex) m).1, m.2) := rfl
    rw [List.foldl_cons, e]
    exact ih _ _ h4 hs

/-- The spacing step only inserts spaces: what is left of the text when the units that
`p` rejects are removed is the same before and after, for every `p` that rejects the
space. -/
theorem insertNewlineAfterURL_filter (p : GoChar → Bool) (hp : p (.rune ' ') = false)
    (text : GoString) :
    (insertNewlineAfterURL text).filter p = text.filter p := by
  have hL : MatchesIn 0 text.length (FindAllStringIndex text) := by
    have := scanMatches_matchesIn text 0 0 (Nat.zero_le _)
    simpa [FindAllStringIndex] using this
  have hf := foldl_insertStep_filter p hp text (FindAllStringIndex text) [] 0 hL (by simp)
  have hb := (foldl_insertStep_bounds text (FindAllStringIndex text) [] 0 hL (Nat.zero_le _)).2
  unfold insertNewlineAfterURL
  simp only []
  split
  · rfl
  · split
    · rw [List.filter_append, hf, ← List.filter_append, take_append_slice _ _ _ hb,
        List.take_of_length_le (le_refl _)]
    · rename_i hlt
      rw [hf, List.take_of_length_le (by omega)]

theorem unterminated_filter_iff (r : GoString) :
    Unterminated (r.filter GoChar.isAngle) ↔ Unterminated r := by
  have hl : GoChar.isAngle ltChar = true := by decide
  have hg : GoChar.isAngle gtChar = true := by decide
  constructor
  · rintro ⟨a, b, h, hb⟩
    obtain ⟨l₁, l₂, hr, _, h2⟩ := List.filter_eq_append_iff.mp h
    obtain ⟨l₃, l₄, hl2, _, _, h4⟩ := List.filter_eq_cons_iff.mp h2
    refine ⟨l₁ ++ l₃, l₄, by rw [hr, hl2, List.append_assoc], ?_⟩
    intro hmem
    exact hb (by rw [← h4]; exact List.mem_filter.mpr ⟨hmem, hg⟩)
  · rintro ⟨a, b, h, hb⟩
    refine ⟨a.filter GoChar.isAngle, b.filter GoChar.isAngle, ?_, ?_⟩
    · rw [h, List.filter_append, List.filter_cons, if_pos hl]
    · intro hmem
      exact hb (List.mem_filter.mp hmem).1

/-- The spacing step neither opens nor closes a tag. -/
theorem insertNewlineAfterURL_unterminated (text : GoString) :
    Unterminated (insertNewlineAfterURL text) ↔ Unterminated text := by
  rw [← unterminated_filter_iff, insertNewlineAfterURL_filter _ (by decide),
    unterminated_filter_iff]

set_option maxRecDepth 100000 in
/-- C3 as stated fails on the code.  A text of at most 250 code points is returned as it
is: `1 < 2` keeps its `<`, which no `>` follows.  A longer text loses only its last
dangling `<`: of `<<` and 300 letters the first `<` stays. -/
theorem C3_unterminated_tag_survives :
    Unterminated (safeTruncate (lit "1 < 2") 250) ∧
      Unterminated (safeTruncate (lit "<<" ++ List.replicate 300 (.rune 'y')) 250) := by
  refine ⟨⟨lit "1 ", lit " 2", by decide, by decide⟩, ⟨[], [], by decide, by decide⟩⟩

/-- C3, amended: for every cleaned text in which every `<` is closed by a `>` before any
further `<`, whatever its length, `safeTruncate` to 250 yields a text with no
unterminated tag: no `<` of the result is left without a `>` somewhere after it; and so
does the spacing step after it, which gives the article content. -/
theorem C3_truncation_leaves_no_unterminated_tag (c : GoString) (h : TagsClosed c) :
    ¬ Unterminated (safeTruncate c 250) ∧
      ¬ Unterminated (insertNewlineAfterURL (safeTruncate c 250)) :=
  ⟨safeTruncate_terminated c 250 h,
    fun hu => safeTruncate_terminated c 250 h
      ((insertNewlineAfterURL_unterminated _).mp hu)⟩

set_option maxRecDepth 100000 in
/-- C3 at a text cut inside a tag: 248 letters and an anchor, truncated after `<a`, give
the 248 letters. -/
theorem C3_truncation_witness :
    TagsClosed (List.replicate 248 (.rune 'y') ++ lit "<a href=\"u\">z</a>") ∧
      safeTruncate (List.replicate 248 (.rune 'y') ++ lit "<a href=\"u\">z</a>") 250 =
        List.replicate 248 (.rune 'y') ∧
      ¬ Unterminated
        (safeTruncate (List.replicate 248 (.rune 'y') ++ lit "<a href=\"u\">z</a>") 250) :=
  ⟨tagsClosedCheck_sound _ (by decide), by decide,
    (C3_truncation_leaves_no_unterminated_tag _ (tagsClosedCheck_sound _ (by decide))).1⟩

/-! ## Properties of the rate limiter -/

theorem load_delete_self {V : Type} (m : SyncMap V) (k : GoString) :
    SyncMap.Load (SyncMap.Delete m k) k = none := by
  induction m with
  | nil => rfl
  | cons e rest ih =>
    obtain ⟨k', v⟩ := e
    by_cases h : k' = k
    · simpa [SyncMap.Delete, List.filter_cons, h] using ih
    · have h' : (k == k') = false := by simpa using fun e => h e.symm
      simpa [SyncMap.Delete, SyncMap.Load, List.filter_cons, h, List.lookup, h'] using ih

theorem load_delete_ne {V : Type} (m : SyncMap V) (k k' : GoString) (h : k' ≠ k) :
    SyncMap.Load (SyncMap.Delete m k) k' = SyncMap.Load m k' := by
  induction m with
  | nil => rfl
  | cons e rest ih =>
    obtain ⟨k₀, v⟩ := e
    unfold SyncMap.Delete SyncMap.Load at *
    by_cases h0 : k₀ = k
    · subst h0
      have h' : (k' == k₀) = false := by simpa using h
      simpa [List.filter_cons, List.lookup, h'] using ih
    · have hk : (k₀ == k) = false := by simpa using h0
      simp only [List.filter_cons, hk, Bool.not_false, if_true, List.lookup]
      cases (k' == k₀)
      · exact ih
      · rfl

theorem load_store_self {V : Type} (m : SyncMap V) (k : GoString) (v : V) :
    SyncMap.Load (SyncMap.Store m k v) k = some v := by
  simp [SyncMap.Store, SyncMap.Load, List.lookup]

theorem load_store_ne {V : Type} (m : SyncMap V) (k k' : GoString) (v : V) (h : k' ≠ k) :
    SyncMap.Load (SyncMap.Store m k v) k' = SyncMap.Load m k' := by
  have h' : (k' == k) = false := by simpa using h
  have := load_delete_ne m k k' h
  simpa [SyncMap.Store, SyncMap.Load, List.lookup, h'] using this

theorem getLimiter_found (key : GoString) (perSecond burstMax : Int) (m : SyncMap Limiter)
    (l : Limiter) (h : SyncMap.Load m key = some l) :
    getLimiter key perSecond burstMax m = (l, m) := by
  simp [getLimiter, h]

theorem getLimiter_new (key : GoString) (perSecond burstMax : Int) (m : SyncMap Limiter)
    (h : SyncMap.Load m key = none) :
    getLimiter key perSecond burstMax m =
      (NewLimiter perSecond.toNat
          (if (if perSecond < 1 then 1 else perSecond) > burstMax then burstMax
            else (if perSecond < 1 then 1 else perSecond)).toNat,
        SyncMap.Store m key (NewLimiter perSecond.toNat
          (if (if perSecond < 1 then 1 else perSecond) > burstMax then burstMax
            else (if perSecond < 1 then 1 else perSecond)).toNat)) := by
  simp [getLimiter, SyncMap.LoadOrStore, h]

theorem load_getLimiter (key : GoString) (perSecond burstMax : Int) (m : SyncMap Limiter) :
    SyncMap.Load (getLimiter key perSecond burstMax m).2 key =
      some (getLimiter key perSecond burstMax m).1 := by
  cases h : SyncMap.Load m key with
  | some l => rw [getLimiter_found key perSecond burstMax m l h]; exact h
  | none => rw [getLimiter_new key perSecond burstMax m h]; exact load_store_self _ _ _

/-- A request made before the recorded block time: rejected with that time, the state
untouched. -/
theorem rateLimit_blocked (perSecond : Int) (blockDuration : Int) (ip : GoString)
    (now : Int) (s : LimiterState) (b : Int) (hp : 0 < perSecond)
    (hb : SyncMap.Load s.ipBlockedUntil (makeKey ip perSecond) = some b) (hlt : now < b) :
    RateLimit perSecond blockDuration ip now s = (.abort429 b, s) := by
  have hp' : ¬ perSecond ≤ 0 := by omega
  simp [RateLimit, hp', hb, hlt]

theorem afterBlockCheck_limiters (s : LimiterState) (key : GoString) :
    (afterBlockCheck s key).ipLimiters = s.ipLimiters := by
  unfold afterBlockCheck; split <;> rfl

theorem afterBlockCheck_lastAccess (s : LimiterState) (key : GoString) :
    (afterBlockCheck s key).ipLastAccess = s.ipLastAccess := by
  unfold afterBlockCheck; split <;> rfl

theorem afterBlockCheck_blocked_self (s : LimiterState) (key : GoString) :
    SyncMap.Load (afterBlockCheck s key).ipBlockedUntil key = none := by
  unfold afterBlockCheck
  split
  · exact load_delete_self _ _
  · assumption

theorem afterBlockCheck_blocked_ne (s : LimiterState) (key k : GoString) (h : k ≠ key) :
    SyncMap.Load (afterBlockCheck s key).ipBlockedUntil k = SyncMap.Load s.ipBlockedUntil k := by
  unfold afterBlockCheck
  split
  · exact load_delete_ne _ _ _ h
  · rfl

/-- A request that is not held back by a block record: the limiter of its key decides. -/
theorem rateLimit_unblocked (perSecond : Int) (blockDuration : Int) (ip : GoString)
    (now : Int) (s : LimiterState) (hp : 0 < perSecond)
    (hb : ∀ b, SyncMap.Load s.ipBlockedUntil (makeKey ip perSecond) = some b → ¬ now < b) :
    RateLimit perSecond blockDuration ip now s =
      let key := makeKey ip perSecond
      let s1 := afterBlockCheck s key
      let g := getLimiter key perSecond maxBurst s1.ipLimiters
      let a := g.1.Allow now
      let s2 : LimiterState := { s1 with ipLimiters := SyncMap.Store g.2 key a.2 }
      if a.1 = false then
        (.abort429 (now + blockDuration),
          { s2 with ipBlockedUntil := SyncMap.Store s2.ipBlockedUntil key (now + blockDuration) })
      else (.next, { s2 with ipLastAccess := SyncMap.Store s2.ipLastAccess key now }) := by
  have hp' : ¬ perSecond ≤ 0 := by omega
  unfold RateLimit afterBlockCheck
  rw [if_neg hp']
  cases hl : SyncMap.Load s.ipBlockedUntil (makeKey ip perSecond) with
  | none =>
    simp only [hl]
    cases ha : ((getLimiter (makeKey ip perSecond) perSecond maxBurst s.ipLimiters).1.Allow now).1
      <;> simp [ha]
  | some b =>
    have hnb := hb b hl
    simp only [hl, hnb, if_false]
    cases ha : ((getLimiter (makeKey ip perSecond) perSecond maxBurst s.ipLimiters).1.Allow now).1
      <;> simp [ha]

/-- What a request that passes the block check leaves behind for its key. -/
theorem rateLimit_unblocked_loads (perSecond : Int) (blockDuration : Int)
    (ip : GoString) (now : Int) (s : LimiterState) (hp : 0 < perSecond)
    (hb : ∀ b, SyncMap.Load s.ipBlockedUntil (makeKey ip perSecond) = some b → ¬ now < b) :
    SyncMap.Load (RateLimit perSecond blockDuration ip now s).2.ipLimiters
        (makeKey ip perSecond) =
      some ((getLimiter (makeKey ip perSecond) perSecond maxBurst s.ipLimiters).1.Allow now).2 ∧
    (((getLimiter (makeKey ip perSecond) perSecond maxBurst s.ipLimiters).1.Allow now).1 = true →
      (RateLimit perSecond blockDuration ip now s).1 = .next ∧
      SyncMap.Load (RateLimit perSecond blockDuration ip now s).2.ipBlockedUntil
        (makeKey ip perSecond) = none ∧
      SyncMap.Load (RateLimit perSecond blockDuration ip now s).2.ipLastAccess
        (makeKey ip perSecond) = some now) ∧
    (((getLimiter (makeKey ip perSecond) perSecond maxBurst s.ipLimiters).1.Allow now).1 = false →
      (RateLimit perSecond blockDuration ip now s).1 = .abort429 (now + blockDuration) ∧
      SyncMap.Load (RateLimit perSecond blockDuration ip now s).2.ipBlockedUntil
        (makeKey ip perSecond) = some (now + blockDuration) ∧
      (RateLimit perSecond blockDuration ip now s).2.ipLastAccess = s.ipLastAccess) := by
  rw [rateLimit_unblocked perSecond blockDuration ip now s hp hb]
  simp only [afterBlockCheck_limiters, afterBlockCheck_lastAccess]
  cases ha : ((getLimiter (makeKey ip perSecond) perSecond maxBurst s.ipLimiters).1.Allow now).1
  · simp [load_store_self]
  · simp [load_store_self, afterBlockCheck_blocked_self]

theorem allow_full (t : Int) :
    (NewLimiter 2 2).Allow t = (true, ⟨2, 2, 1000000000, t⟩) := by
  unfold Limiter.Allow NewLimiter
  simp only []
  rw [Nat.min_eq_right (by omega), if_pos (by omega)]

theorem allow_same_instant (tokens : Nat) (t : Int) (h : tokens ≤ 2000000000) :
    (⟨2, 2, tokens, t⟩ : Limiter).Allow t =
      if 1000000000 ≤ tokens then (true, ⟨2, 2, tokens - 1000000000, t⟩)
      else (false, ⟨2, 2, tokens, t⟩) := by
  unfold Limiter.Allow
  simp only [lt_self_iff_false, if_false, sub_self, Int.toNat_zero, Nat.zero_mul,
    Nat.add_zero]
  rw [Nat.min_eq_left (by omega)]

theorem allow_after_61s (t : Int) :
    (⟨2, 2, 0, t⟩ : Limiter).Allow (t + 61 * second) =
      (true, ⟨2, 2, 1000000000, t + 61 * second⟩) := by
  have h1 : ¬ (t + 61 * second < t) := by unfold second; omega
  have h2 : (t + 61 * second - t).toNat = 61000000000 := by unfold second; omega
  unfold Limiter.Allow
  simp only [h1, if_false, h2, Nat.zero_add]
  rw [Nat.min_eq_right (by omega), if_pos (by omega)]

/-- C6: for a key with no limiter and no block record, at rate 2 per second and a block
of 60 s: two requests at time `t` are allowed; a third at `t` is rejected with block time
`t + 60 s`, which is recorded; a request at `t + 30 s` is rejected with the same block
time, still recorded; a request at `t + 61 s` clears the record and is allowed. -/
theorem C6_rate_limiter_sequence (ip : GoString) (t : Int) (s0 : LimiterState)
    (hl : SyncMap.Load s0.ipLimiters (makeKey ip 2) = none)
    (hb : SyncMap.Load s0.ipBlockedUntil (makeKey ip 2) = none) :
    let r1 := RateLimit 2 (60 * second) ip t s0
    let r2 := RateLimit 2 (60 * second) ip t r1.2
    let r3 := RateLimit 2 (60 * second) ip t r2.2
    let r4 := RateLimit 2 (60 * second) ip (t + 30 * second) r3.2
    let r5 := RateLimit 2 (60 * second) ip (t + 61 * second) r4.2
    r1.1 = .next ∧ r2.1 = .next ∧
    r3.1 = .abort429 (t + 60 * second) ∧
    SyncMap.Load r3.2.ipBlockedUntil (makeKey ip 2) = some (t + 60 * second) ∧
    r4.1 = .abort429 (t + 60 * second) ∧
    SyncMap.Load r4.2.ipBlockedUntil (makeKey ip 2) = some (t + 60 * second) ∧
    r5.1 = .next ∧
    SyncMap.Load r5.2.ipBlockedUntil (makeKey ip 2) = none := by
  intro r1 r2 r3 r4 r5
  have hp : (0 : Int) < 2 := by decide
  -- first request: a new, full bucket
  have g1 : (getLimiter (makeKey ip 2) 2 maxBurst s0.ipLimiters).1 = NewLimiter 2 2 := by
    rw [getLimiter_new _ _ _ _ hl]; rfl
  obtain ⟨l1, a1, _⟩ := rateLimit_unblocked_loads 2 (60 * second) ip t s0 hp
    (by intro b h; rw [hb] at h; cases h)
  rw [g1, allow_full] at l1 a1
  obtain ⟨n1, b1, _⟩ := a1 rfl
  -- second request: one token left
  have g2 : (getLimiter (makeKey ip 2) 2 maxBurst r1.2.ipLimiters).1 = ⟨2, 2, 1000000000, t⟩ := by
    rw [getLimiter_found _ _ _ _ _ l1]
  obtain ⟨l2, a2, _⟩ := rateLimit_unblocked_loads 2 (60 * second) ip t r1.2 hp
    (by intro b h; rw [b1] at h; cases h)
  rw [g2, allow_same_instant _ _ (by omega)] at l2 a2
  simp only [le_refl, if_true, Nat.sub_self] at l2 a2
  obtain ⟨n2, b2, _⟩ := a2 trivial
  -- third request: the bucket is empty
  have g3 : (getLimiter (makeKey ip 2) 2 maxBurst r2.2.ipLimiters).1 = ⟨2, 2, 0, t⟩ := by
    rw [getLimiter_found _ _ _ _ _ l2]
  obtain ⟨l3, _, a3⟩ := rateLimit_unblocked_loads 2 (60 * second) ip t r2.2 hp
    (by intro b h; rw [b2] at h; cases h)
  rw [g3, allow_same_instant _ _ (by omega)] at l3 a3
  simp only [show ¬ (1000000000 ≤ 0) by omega, if_false] at l3 a3
  obtain ⟨n3, b3, _⟩ := a3 trivial
  -- fourth request: before the block time
  have e4 : r4 = (.abort429 (t + 60 * second), r3.2) :=
    rateLimit_blocked 2 (60 * second) ip (t + 30 * second) r3.2 (t + 60 * second) hp b3
      (by unfold second; omega)
  -- fifth request: after the block time, the bucket refilled
  have l4 : SyncMap.Load r4.2.ipLimiters (makeKey ip 2) = some ⟨2, 2, 0, t⟩ := by
    rw [e4]; exact l3
  have b4 : SyncMap.Load r4.2.ipBlockedUntil (makeKey ip 2) = some (t + 60 * second) := by
    rw [e4]; exact b3
  have g5 : (getLimiter (makeKey ip 2) 2 maxBurst r4.2.ipLimiters).1 = ⟨2, 2, 0, t⟩ := by
    rw [getLimiter_found _ _ _ _ _ l4]
  obtain ⟨_, a5, _⟩ := rateLimit_unblocked_loads 2 (60 * second) ip (t + 61 * second) r4.2 hp
    (by
      intro b h
      rw [b4] at h
      cases h
      unfold second
      omega)
  rw [g5, allow_after_61s] at a5
  obtain ⟨n5, b5, _⟩ := a5 rfl
  exact ⟨n1, n2, n3, b3, by rw [e4], b4, n5, b5⟩

/-- C6 from the empty state, for the client `10.0.0.1` at time 0. -/
theorem C6_rate_limiter_sequence_witness :
    (RateLimit 2 (60 * second) clientIP 0 emptyState).1 = .next ∧
      (RateLimit 2 (60 * second) clientIP 0 afterTwoRequests).1 =
        .abort429 (0 + 60 * second) :=
  ⟨(C6_rate_limiter_sequence clientIP 0 emptyState rfl rfl).1,
    (C6_rate_limiter_sequence clientIP 0 emptyState rfl rfl).2.2.1⟩

/-- After two requests of a fresh key at one instant the bucket is empty, no block is
recorded, and the last access is that instant. -/
theorem after_two_requests (ip : GoString) (t : Int) (s0 : LimiterState)
    (hl : SyncMap.Load s0.ipLimiters (makeKey ip 2) = none)
    (hb : SyncMap.Load s0.ipBlockedUntil (makeKey ip 2) = none) :
    SyncMap.Load (RateLimit 2 (60 * second) ip t
        (RateLimit 2 (60 * second) ip t s0).2).2.ipLimiters (makeKey ip 2) =
      some ⟨2, 2, 0, t⟩ ∧
    SyncMap.Load (RateLimit 2 (60 * second) ip t
        (RateLimit 2 (60 * second) ip t s0).2).2.ipBlockedUntil (makeKey ip 2) = none ∧
    SyncMap.Load (RateLimit 2 (60 * second) ip t
        (RateLimit 2 (60 * second) ip t s0).2).2.ipLastAccess (makeKey ip 2) = some t := by
  have hp : (0 : Int) < 2 := by decide
  have g1 : (getLimiter (makeKey ip 2) 2 maxBurst s0.ipLimiters).1 = NewLimiter 2 2 := by
    rw [getLimiter_new _ _ _ _ hl]; rfl
  obtain ⟨l1, a1, _⟩ := rateLimit_unblocked_loads 2 (60 * second) ip t s0 hp
    (by intro b h; rw [hb] at h; cases h)
  rw [g1, allow_full] at l1 a1
  obtain ⟨_, b1, _⟩ := a1 rfl
  have g2 : (getLimiter (makeKey ip 2) 2 maxBurst
      (RateLimit 2 (60 * second) ip t s0).2.ipLimiters).1 = ⟨2, 2, 1000000000, t⟩ := by
    rw [getLimiter_found _ _ _ _ _ l1]
  obtain ⟨l2, a2, _⟩ := rateLimit_unblocked_loads 2 (60 * second) ip t
    (RateLimit 2 (60 * second) ip t s0).2 hp (by intro b h; rw [b1] at h; cases h)
  rw [g2, allow_same_instant _ _ (by omega)] at l2 a2
  simp only [le_refl, if_true, Nat.sub_self] at l2 a2
  obtain ⟨_, b2, la2⟩ := a2 trivial
  exact ⟨l2, b2, la2⟩

theorem afterTwoRequests_loads :
    SyncMap.Load afterTwoRequests.ipLimiters (makeKey clientIP 2) = some ⟨2, 2, 0, 0⟩ ∧
    SyncMap.Load afterTwoRequests.ipBlockedUntil (makeKey clientIP 2) = none ∧
    SyncMap.Load afterTwoRequests.ipLastAccess (makeKey clientIP 2) = some 0 :=
  after_two_requests clientIP 0 emptyState rfl rfl

/-- C7 as stated fails on the code: the client has made two requests at time 0; its
third request, one nanosecond later, finds no token and is rejected with block time
`1 + 60 s`, and the last access recorded for its key is still 0, not 1. -/
theorem C7_rejection_keeps_last_access :
    (RateLimit 2 (60 * second) clientIP 1 afterTwoRequests).1 = .abort429 (1 + 60 * second) ∧
    SyncMap.Load (RateLimit 2 (60 * second) clientIP 1 afterTwoRequests).2.ipLastAccess
      (makeKey clientIP 2) = some 0 ∧
    SyncMap.Load (RateLimit 2 (60 * second) clientIP 1 afterTwoRequests).2.ipLastAccess
      (makeKey clientIP 2) ≠ some 1 := by
  obtain ⟨l2, b2, la2⟩ := afterTwoRequests_loads
  have g : (getLimiter (makeKey clientIP 2) 2 maxBurst afterTwoRequests.ipLimiters).1 =
      ⟨2, 2, 0, 0⟩ := by
    rw [getLimiter_found _ _ _ _ _ l2]
  have ha : ((⟨2, 2, 0, 0⟩ : Limiter).Allow 1).1 = false := by decide
  obtain ⟨_, _, a3⟩ := rateLimit_unblocked_loads 2 (60 * second) clientIP 1 afterTwoRequests
    (by decide) (by intro b h; rw [b2] at h; cases h)
  rw [g] at a3
  obtain ⟨n3, _, e3⟩ := a3 ha
  refine ⟨n3, ?_, ?_⟩
  · rw [e3]; exact la2
  · rw [e3, la2]
    decide

/-- C7, amended: a request that passes the block check and finds no token available is
rejected, its key's block time is set to now + block duration, and the last-access map
is left as it was: a rejected request does not update the last access. -/
theorem C7_rejection_sets_block_only (perSecond : Int) (blockDuration : Int)
    (ip : GoString) (now : Int) (s : LimiterState) (hp : 0 < perSecond)
    (hb : ∀ b, SyncMap.Load s.ipBlockedUntil (makeKey ip perSecond) = some b → ¬ now < b)
    (ha : ((getLimiter (makeKey ip perSecond) perSecond maxBurst s.ipLimiters).1.Allow
      now).1 = false) :
    (RateLimit perSecond blockDuration ip now s).1 = .abort429 (now + blockDuration) ∧
    SyncMap.Load (RateLimit perSecond blockDuration ip now s).2.ipBlockedUntil
      (makeKey ip perSecond) = some (now + blockDuration) ∧
    (RateLimit perSecond blockDuration ip now s).2.ipLastAccess = s.ipLastAccess :=
  (rateLimit_unblocked_loads perSecond blockDuration ip now s hp hb).2.2 ha

/-- C7 at the third request of the client, one nanosecond after its first two. -/
theorem C7_rejection_witness :
    (RateLimit 2 (60 * second) clientIP 1 afterTwoRequests).2.ipLastAccess =
      afterTwoRequests.ipLastAccess := by
  obtain ⟨l2, b2, _⟩ := afterTwoRequests_loads
  refine (C7_rejection_sets_block_only 2 (60 * second) clientIP 1 afterTwoRequests
    (by decide) ?_ ?_).2.2
  · intro b h
    rw [b2] at h
    cases h
  · rw [getLimiter_found _ _ _ _ _ l2]
    decide

theorem afterThreeRequests_blocked :
    SyncMap.Load afterThreeRequests.ipBlockedUntil (makeKey clientIP 2) =
      some (1 + 60 * second) := by
  obtain ⟨l2, b2, _⟩ := afterTwoRequests_loads
  obtain ⟨_, _, a3⟩ := rateLimit_unblocked_loads 2 (60 * second) clientIP 1 afterTwoRequests
    (by decide) (by intro b h; rw [b2] at h; cases h)
  rw [getLimiter_found _ _ _ _ _ l2] at a3
  exact (a3 (by decide)).2.1

theorem rateLimit_badConfig (perSecond : Int) (blockDuration : Int) (ip : GoString)
    (now : Int) (s : LimiterState) (hp : perSecond ≤ 0) :
    RateLimit perSecond blockDuration ip now s = (.abort400, s) := by
  simp [RateLimit, hp]

/-- What a request does to the block record of its own key, when one is there. -/
theorem rateLimit_block_record (perSecond : Int) (blockDuration : Int) (ip : GoString)
    (now : Int) (s : LimiterState) (b : Int)
    (hb : SyncMap.Load s.ipBlockedUntil (makeKey ip perSecond) = some b) :
    (perSecond ≤ 0 ∧ RateLimit perSecond blockDuration ip now s = (.abort400, s)) ∨
    (0 < perSecond ∧ now < b ∧ RateLimit perSecond blockDuration ip now s = (.abort429 b, s)) ∨
    (0 < perSecond ∧ ¬ now < b ∧
      (SyncMap.Load (RateLimit perSecond blockDuration ip now s).2.ipBlockedUntil
          (makeKey ip perSecond) = none ∨
        SyncMap.Load (RateLimit perSecond blockDuration ip now s).2.ipBlockedUntil
          (makeKey ip perSecond) = some (now + blockDuration))) := by
  by_cases hp : perSecond ≤ 0
  · exact Or.inl ⟨hp, rateLimit_badConfig _ _ _ _ _ hp⟩
  · have hp' : 0 < perSecond := by omega
    by_cases hlt : now < b
    · exact Or.inr (Or.inl ⟨hp', hlt, rateLimit_blocked _ _ _ _ _ _ hp' hb hlt⟩)
    · refine Or.inr (Or.inr ⟨hp', hlt, ?_⟩)
      obtain ⟨_, h1, h2⟩ := rateLimit_unblocked_loads perSecond blockDuration ip now s hp'
        (by intro b' h; rw [hb] at h; cases h; exact hlt)
      cases ha : ((getLimiter (makeKey ip perSecond) perSecond maxBurst
          s.ipLimiters).1.Allow now).1
      · exact Or.inr (h2 ha).2.1
      · exact Or.inl (h1 ha).2.1

/-- A request leaves the block records of all other keys as they are. -/
theorem rateLimit_block_frame (perSecond : Int) (blockDuration : Int) (ip : GoString)
    (now : Int) (s : LimiterState) (k : GoString) (hk : k ≠ makeKey ip perSecond) :
    SyncMap.Load (RateLimit perSecond blockDuration ip now s).2.ipBlockedUntil k =
      SyncMap.Load s.ipBlockedUntil k := by
  by_cases hp : perSecond ≤ 0
  · rw [rateLimit_badConfig _ _ _ _ _ hp]
  · have hp' : 0 < perSecond := by omega
    by_cases hb : ∀ b, SyncMap.Load s.ipBlockedUntil (makeKey ip perSecond) = some b → ¬ now < b
    · rw [rateLimit_unblocked perSecond blockDuration ip now s hp' hb]
      simp only []
      split
      · simp only []
        rw [load_store_ne _ _ _ _ hk, afterBlockCheck_blocked_ne _ _ _ hk]
      · simp only []
        rw [afterBlockCheck_blocked_ne _ _ _ hk]
    · push_neg at hb
      obtain ⟨b, hb1, hb2⟩ := hb
      rw [rateLimit_blocked _ _ _ _ _ _ hp' hb1 hb2]

/-- C8: let a key have block time `b` and the block duration be at least 0.  A request of
that key made strictly before `b` is not let through, is rejected with `b` (at a valid
rate), and leaves the whole state, bucket and block time included, as it was.  A request
of that key changes or removes the record only when it is made at `b` or later, and a
record it leaves is never earlier than `b`.  A request of any other key leaves the
record as it is. -/
theorem C8_block_time_never_moves_earlier (perSecond : Int) (blockDuration : Int)
    (ip : GoString) (now : Int) (s : LimiterState) (b : Int) (hd : 0 ≤ blockDuration)
    (hb : SyncMap.Load s.ipBlockedUntil (makeKey ip perSecond) = some b) :
    (now < b →
      (RateLimit perSecond blockDuration ip now s).1 ≠ .next ∧
      (0 < perSecond → (RateLimit perSecond blockDuration ip now s).1 = .abort429 b) ∧
      (RateLimit perSecond blockDuration ip now s).2 = s) ∧
    (SyncMap.Load (RateLimit perSecond blockDuration ip now s).2.ipBlockedUntil
        (makeKey ip perSecond) ≠ some b → ¬ now < b) ∧
    (∀ b', SyncMap.Load (RateLimit perSecond blockDuration ip now s).2.ipBlockedUntil
        (makeKey ip perSecond) = some b' → b ≤ b') ∧
    (∀ (perSecond' blockDuration' : Int) (ip' : GoString) (now' : Int),
      makeKey ip perSecond ≠ makeKey ip' perSecond' →
      SyncMap.Load (RateLimit perSecond' blockDuration' ip' now' s).2.ipBlockedUntil
        (makeKey ip perSecond) = some b) := by
  refine ⟨?_, ?_, ?_, ?_⟩
  · intro hlt
    rcases rateLimit_block_record perSecond blockDuration ip now s b hb with
      ⟨hp, e⟩ | ⟨hp, _, e⟩ | ⟨_, hnlt, _⟩
    · rw [e]
      exact ⟨by simp, fun h => absurd h (by omega), rfl⟩
    · rw [e]
      exact ⟨by simp, fun _ => rfl, rfl⟩
    · exact absurd hlt hnlt
  · intro hne hlt
    rcases rateLimit_block_record perSecond blockDuration ip now s b hb with
      ⟨_, e⟩ | ⟨_, _, e⟩ | ⟨_, hnlt, _⟩
    · rw [e] at hne; exact hne hb
    · rw [e] at hne; exact hne hb
    · exact hnlt hlt
  · intro b' hb'
    rcases rateLimit_block_record perSecond blockDuration ip now s b hb with
      ⟨_, e⟩ | ⟨_, _, e⟩ | ⟨_, hnlt, h⟩
    · rw [e, hb] at hb'; cases hb'; exact le_refl _
    · rw [e, hb] at hb'; cases hb'; exact le_refl _
    · rcases h with h | h
      · rw [h] at hb'; cases hb'
      · rw [h] at hb'; cases hb'; omega
  · intro perSecond' blockDuration' ip' now' hk
    rw [rateLimit_block_frame _ _ _ _ _ _ hk]
    exact hb

/-- C8 at the blocked client: its request at time 2 is rejected with the block time
`1 + 60 s` and changes nothing. -/
theorem C8_block_time_witness :
    (RateLimit 2 (60 * second) clientIP 2 afterThreeRequests).1 = .abort429 (1 + 60 * second) ∧
      (RateLimit 2 (60 * second) clientIP 2 afterThreeRequests).2 = afterThreeRequests :=
  ⟨((C8_block_time_never_moves_earlier 2 (60 * second) clientIP 2 afterThreeRequests
      (1 + 60 * second) (by decide) afterThreeRequests_blocked).1 (by decide)).2.1 (by decide),
    ((C8_block_time_never_moves_earlier 2 (60 * second) clientIP 2 afterThreeRequests
      (1 + 60 * second) (by decide) afterThreeRequests_blocked).1 (by decide)).2.2⟩

/-! ### The sweep -/

theorem load_ne_none_iff_mem_keys {V : Type} (m : SyncMap V) (k : GoString) :
    SyncMap.Load m k ≠ none ↔ k ∈ m.map Prod.fst := by
  induction m with
  | nil => simp [SyncMap.Load, List.lookup]
  | cons e rest ih =>
    obtain ⟨k₀, v⟩ := e
    unfold SyncMap.Load at *
    by_cases h : k = k₀
    · subst h
      simp [List.lookup]
    · have h' : (k == k₀) = false := by simpa using h
      simp only [List.lookup, h', List.map_cons, List.mem_cons, h, false_or]
      exact ih

theorem mem_foldl_collectExpired (la : SyncMap Int) (d now : Int) (ks acc : List GoString)
    (k : GoString) :
    k ∈ ks.foldl (collectExpired la d now) acc ↔
      k ∈ acc ∨ (k ∈ ks ∧ ∀ t, SyncMap.Load la k = some t → now - t > d) := by
  induction ks generalizing acc with
  | nil => simp
  | cons x xs ih =>
    rw [List.foldl_cons, ih]
    unfold collectExpired
    cases hx : SyncMap.Load la x with
    | none =>
      simp only [List.mem_append, List.mem_cons, List.not_mem_nil, or_false]
      constructor
      · rintro ((h | h) | h)
        · exact Or.inl h
        · exact Or.inr ⟨Or.inl h, by intro t ht; rw [h, hx] at ht; cases ht⟩
        · exact Or.inr ⟨Or.inr h.1, h.2⟩
      · rintro (h | ⟨h | h, h2⟩)
        · exact Or.inl (Or.inl h)
        · exact Or.inl (Or.inr h)
        · exact Or.inr ⟨h, h2⟩
    | some t₀ =>
      simp only []
      by_cases hexp : now - t₀ > d
      · rw [if_pos hexp]
        simp only [List.mem_append, List.mem_cons, List.not_mem_nil, or_false]
        constructor
        · rintro ((h | h) | h)
          · exact Or.inl h
          · refine Or.inr ⟨Or.inl h, ?_⟩
            intro t ht
            rw [h, hx] at ht
            cases ht
            exact hexp
          · exact Or.inr ⟨Or.inr h.1, h.2⟩
        · rintro (h | ⟨h | h, h2⟩)
          · exact Or.inl (Or.inl h)
          · exact Or.inl (Or.inr h)
          · exact Or.inr ⟨h, h2⟩
      · rw [if_neg hexp]
        simp only [List.mem_cons]
        constructor
        · rintro (h | h)
          · exact Or.inl h
          · exact Or.inr ⟨Or.inr h.1, h.2⟩
        · rintro (h | ⟨h | h, h2⟩)
          · exact Or.inl h
          · exact absurd (h2 t₀ (by rw [h]; exact hx)) hexp
          · exact Or.inr ⟨h, h2⟩

theorem foldl_deleteKey_of_mem (ks : List GoString) (s : LimiterState) (k : GoString)
    (h : k ∈ ks) :
    SyncMap.Load (ks.foldl deleteKey s).ipLimiters k = none ∧
    SyncMap.Load (ks.foldl deleteKey s).ipLastAccess k = none ∧
    SyncMap.Load (ks.foldl deleteKey s).ipBlockedUntil k = none := by
  induction ks generalizing s with
  | nil => simp at h
  | cons x xs ih =>
    rw [List.foldl_cons]
    by_cases hx : k ∈ xs
    · exact ih (deleteKey s x) hx
    · have hk : k = x := by
        rcases List.mem_cons.mp h with e | e
        · exact e
        · exact absurd e hx
      subst hk
      have frame : ∀ (ys : List GoString) (s' : LimiterState), k ∉ ys →
          SyncMap.Load (ys.foldl deleteKey s').ipLimiters k = SyncMap.Load s'.ipLimiters k ∧
          SyncMap.Load (ys.foldl deleteKey s').ipLastAccess k =
            SyncMap.Load s'.ipLastAccess k ∧
          SyncMap.Load (ys.foldl deleteKey s').ipBlockedUntil k =
            SyncMap.Load s'.ipBlockedUntil k := by
        intro ys
        induction ys with
        | nil => intro s' _; exact ⟨rfl, rfl, rfl⟩
        | cons y ys ihy =>
          intro s' hy
          rw [List.foldl_cons]
          have hy1 : k ≠ y := fun e => hy (by simp [e])
          have hy2 : k ∉ ys := fun e => hy (by simp [e])
          obtain ⟨h1, h2, h3⟩ := ihy (deleteKey s' y) hy2
          exact ⟨by rw [h1]; exact load_delete_ne _ _ _ hy1,
            by rw [h2]; exact load_delete_ne _ _ _ hy1,
            by rw [h3]; exact load_delete_ne _ _ _ hy1⟩
      obtain ⟨h1, h2, h3⟩ := frame xs (deleteKey s k) hx
      exact ⟨by rw [h1]; exact load_delete_self _ _, by rw [h2]; exact load_delete_self _ _,
        by rw [h3]; exact load_delete_self _ _⟩

theorem foldl_deleteKey_of_not_mem (ks : List GoString) (s : LimiterState) (k : GoString)
    (h : k ∉ ks) :
    SyncMap.Load (ks.foldl deleteKey s).ipLimiters k = SyncMap.Load s.ipLimiters k ∧
    SyncMap.Load (ks.foldl deleteKey s).ipLastAccess k = SyncMap.Load s.ipLastAccess k ∧
    SyncMap.Load (ks.foldl deleteKey s).ipBlockedUntil k = SyncMap.Load s.ipBlockedUntil k := by
  induction ks generalizing s with
  | nil => exact ⟨rfl, rfl, rfl⟩
  | cons y ys ih =>
    rw [List.foldl_cons]
    have hy1 : k ≠ y := fun e => h (by simp [e])
    have hy2 : k ∉ ys := fun e => h (by simp [e])
    obtain ⟨h1, h2, h3⟩ := ih (deleteKey s y) hy2
    exact ⟨by rw [h1]; exact load_delete_ne _ _ _ hy1,
      by rw [h2]; exact load_delete_ne _ _ _ hy1,
      by rw [h3]; exact load_delete_ne _ _ _ hy1⟩

/-- C9: in a sweep at time `now` with TTL `expireAfter`, a key that has a limiter and
whose last access is older than the TTL, or is not recorded, has no limiter, no last
access and no block record afterwards; a key whose last access is within the TTL keeps
its limiter, last access and block record as they were. -/
theorem C9_sweep_evicts_idle_keys_only (expireAfter now : Int) (s : LimiterState)
    (k : GoString) :
    ((SyncMap.Load s.ipLimiters k ≠ none ∧
        (SyncMap.Load s.ipLastAccess k = none ∨
          ∃ lastAccess, SyncMap.Load s.ipLastAccess k = some lastAccess ∧
            now - lastAccess > expireAfter)) →
      SyncMap.Load (cleanupTick expireAfter now s).ipLimiters k = none ∧
      SyncMap.Load (cleanupTick expireAfter now s).ipLastAccess k = none ∧
      SyncMap.Load (cleanupTick expireAfter now s).ipBlockedUntil k = none) ∧
    ((∃ lastAccess, SyncMap.Load s.ipLastAccess k = some lastAccess ∧
          now - lastAccess ≤ expireAfter) →
      SyncMap.Load (cleanupTick expireAfter now s).ipLimiters k = SyncMap.Load s.ipLimiters k ∧
      SyncMap.Load (cleanupTick expireAfter now s).ipLastAccess k =
        SyncMap.Load s.ipLastAccess k ∧
      SyncMap.Load (cleanupTick expireAfter now s).ipBlockedUntil k =
        SyncMap.Load s.ipBlockedUntil k) := by
  constructor
  · rintro ⟨hl, hexp⟩
    apply foldl_deleteKey_of_mem
    rw [mem_foldl_collectExpired]
    refine Or.inr ⟨(load_ne_none_iff_mem_keys _ _).mp hl, ?_⟩
    intro t ht
    rcases hexp with h | ⟨la, h1, h2⟩
    · rw [h] at ht; cases ht
    · rw [h1] at ht; cases ht; exact h2
  · rintro ⟨la, h1, h2⟩
    apply foldl_deleteKey_of_not_mem
    rw [mem_foldl_collectExpired]
    rintro (h | ⟨_, h⟩)
    · simp at h
    · have := h la h1
      omega

/-! ## Properties of the crawl guard -/

/-- C10, on the code: when loading the friend directory fails, or writing the digest
fails, the scheduler path `fetchAndSave` exits the process with status 1 while the busy
flag it has set is still set: the deferred clearing does not run.  The goroutine of the
HTTP trigger returns in the same two cases and clears the flag.  On a load failure
neither path writes a digest. -/
theorem C10_scheduler_failure_leaves_flag_set (e : GoString) (friends : Friends)
    (crawl : Friends → Digest) (write : Digest → Except GoString Unit)
    (written : List Digest) :
    fetchAndSave ⟨.error e, crawl, write⟩ ⟨false, written, none⟩ = ⟨true, written, some 1⟩ ∧
    fetchAndSave ⟨.ok friends, crawl, fun _ => .error e⟩ ⟨false, written, none⟩ =
      ⟨true, written, some 1⟩ ∧
    ginFetchGoroutine ⟨.error e, crawl, write⟩ ⟨true, written, none⟩ =
      ⟨false, written, none⟩ ∧
    ginFetchGoroutine ⟨.ok friends, crawl, fun _ => .error e⟩ ⟨true, written, none⟩ =
      ⟨false, written, none⟩ :=
  ⟨rfl, rfl, rfl, rfl⟩

/-! ## Properties of the sanitizer: the spacing step and the repair

### The spacing step, unit by unit -/

theorem spacedAfter_of_no_end (ends : List Nat) (b : GoString) (i : Nat)
    (h : ∀ e ∈ ends, e ≤ i) : spacedAfter ends b i = b := by
  induction b generalizing i with
  | nil => rfl
  | cons c cs ih =>
    have hn : (i + 1) ∉ ends := fun hm => by have := h _ hm; omega
    simp only [spacedAfter, hn, false_and, if_false]
    rw [ih (i + 1) (fun e he => by have := h e he; omega)]

theorem spacedAfter_cons_segment (ends : List Nat) (cs b : GoString) (c : GoChar)
    (i j : Nat) (hj : j = i + cs.length + 1) (h : ∀ e ∈ ends, ¬ (i < e ∧ e < j)) :
    spacedAfter ends (c :: (cs ++ b)) i =
      c :: (cs ++ ((if j ∈ ends ∧ needsSpace b = true then [GoChar.rune ' '] else []) ++
        spacedAfter ends b j)) := by
  induction cs generalizing c i with
  | nil =>
    have hj' : j = i + 1 := by simpa using hj
    subst hj'
    by_cases hc : (i + 1) ∈ ends ∧ needsSpace b = true
    · simp [spacedAfter, hc]
    · simp [spacedAfter, hc]
  | cons c' cs' ih =>
    have hn : (i + 1) ∉ ends := fun hm => h _ hm ⟨by omega, by
      simp only [List.length_cons] at hj; omega⟩
    have := ih c' (i + 1) (by simp only [List.length_cons] at hj; omega)
      (fun e he hc => h e he ⟨by omega, hc.2⟩)
    have step : spacedAfter ends (c :: (c' :: (cs' ++ b))) i =
        c :: spacedAfter ends (c' :: (cs' ++ b)) (i + 1) := by
      simp only [spacedAfter, hn, false_and, if_false]
    rw [List.cons_append, step, this, List.cons_append]

theorem spacedAfter_segment (ends : List Nat) (a b : GoString) (i : Nat) (ha : a ≠ [])
    (h : ∀ e ∈ ends, ¬ (i < e ∧ e < i + a.length)) :
    spacedAfter ends (a ++ b) i =
      a ++ ((if (i + a.length) ∈ ends ∧ needsSpace b = true then [GoChar.rune ' '] else []) ++
        spacedAfter ends b (i + a.length)) := by
  cases a with
  | nil => exact absurd rfl ha
  | cons c cs =>
    exact spacedAfter_cons_segment ends cs b c i _ (by simp only [List.length_cons]; omega) h

theorem matchesIn_end_ge (lo hi : Nat) (L : List (Nat × Nat)) (hL : MatchesIn lo hi L) :
    ∀ m ∈ L, lo + 13 ≤ m.2 := by
  induction L generalizing lo with
  | nil => intro m hm; cases hm
  | cons x rest ih =>
    obtain ⟨h1, h2, _, h4⟩ := hL
    intro m hm
    rcases List.mem_cons.mp hm with e | e
    · subst e; omega
    · have := ih x.2 h4 m e; omega

theorem needsSpace_drop (text : GoString) (stop : Nat) :
    needsSpace (text.drop stop) =
      match text.get? stop with
      | some d => !d.is ' ' && !d.is '\n' && !d.is '\r'
      | none => false := by
  induction text generalizing stop with
  | nil => simp [needsSpace]
  | cons c cs ih =>
    cases stop with
    | zero => simp [needsSpace]
    | succ k => simpa using ih k

theorem slice_append_drop (text : GoString) (i j : Nat) (h : i ≤ j) :
    slice text i j ++ text.drop j = text.drop i := by
  have h1 := take_append_slice text i j h
  have h2 := List.take_append_drop j text
  have h3 := List.take_append_drop i text
  rw [← h1, List.append_assoc] at h2
  have h4 : text.take i ++ (slice text i j ++ text.drop j) = text.take i ++ text.drop i := by
    rw [h2, h3]
  exact List.append_cancel_left h4

theorem insertStep_eq (text builder : GoString) (lastIndex : Nat) (m : Nat × Nat) :
    insertStep text (builder, lastIndex) m =
      (builder ++ slice text lastIndex m.1 ++ slice text m.1 m.2 ++
        (if needsSpace (text.drop m.2) = true then [GoChar.rune ' '] else []), m.2) := by
  obtain ⟨start, stop⟩ := m
  rw [needsSpace_drop]
  simp only [insertStep]
  cases hg : text.get? stop with
  | none => simp
  | some d =>
    have hlt : stop < text.length := by
      rcases List.get?_eq_some.mp hg with ⟨h, _⟩
      exact h
    rw [if_pos hlt]
    simp only []
    by_cases hc : (!d.is ' ' && !d.is '\n' && !d.is '\r') = true
    · rw [if_pos hc, if_pos hc]; rfl
    · rw [if_neg hc, if_neg hc]; simp

theorem foldl_insertStep_spaced (text : GoString) (E : List Nat) (L : List (Nat × Nat))
    (builder : GoString) (lastIndex : Nat) (hL : MatchesIn lastIndex text.length L)
    (hle : lastIndex ≤ text.length)
    (hE : ∀ e ∈ E, e ≤ lastIndex ∨ e ∈ L.map Prod.snd) (hLE : ∀ m ∈ L, m.2 ∈ E) :
    (L.foldl (insertStep text) (builder, lastIndex)).1 ++
        text.drop (L.foldl (insertStep text) (builder, lastIndex)).2 =
      builder ++ spacedAfter E (text.drop lastIndex) lastIndex := by
  induction L generalizing builder lastIndex with
  | nil =>
    simp only [List.foldl_nil]
    rw [spacedAfter_of_no_end]
    intro e he
    rcases hE e he with h | h
    · exact h
    · simp at h
  | cons m rest ih =>
    obtain ⟨h1, h2, h3, h4⟩ := hL
    have hge := matchesIn_end_ge m.2 text.length rest h4
    rw [List.foldl_cons, insertStep_eq]
    rw [ih _ m.2 h4 h3 ?_ (fun x hx => hLE x (List.mem_cons_of_mem _ hx))]
    · have hseg : text.drop lastIndex = slice text lastIndex m.2 ++ text.drop m.2 :=
        (slice_append_drop text lastIndex m.2 (by omega)).symm
      have hlen : (slice text lastIndex m.2).length = m.2 - lastIndex := by
        simp only [slice, List.length_take, List.length_drop]
        omega
      have hne : slice text lastIndex m.2 ≠ [] := by
        intro e
        rw [e] at hlen
        simp only [List.length_nil] at hlen
        omega
      rw [hseg, spacedAfter_segment E _ _ lastIndex hne ?_, hlen,
        show lastIndex + (m.2 - lastIndex) = m.2 by omega]
      · have hin : m.2 ∈ E := hLE m (List.mem_cons_self _ _)
        have hs : slice text lastIndex m.1 ++ slice text m.1 m.2 = slice text lastIndex m.2 := by
          have e1 := take_append_slice text lastIndex m.1 h1
          have e2 := take_append_slice text m.1 m.2 (by omega)
          have e3 := take_append_slice text lastIndex m.2 (by omega)
          rw [← e1, List.append_assoc] at e2
          rw [← e3] at e2
          exact List.append_cancel_left e2
        simp only [hin, true_and, List.append_assoc]
        rw [← List.append_assoc (slice text lastIndex m.1), hs]
      · intro e he hc
        rw [hlen] at hc
        rcases hE e he with h | h
        · omega
        · simp only [List.map_cons, List.mem_cons] at h
          rcases h with h | h
          · omega
          · obtain ⟨x, hx, hxe⟩ := List.mem_map.mp h
            have := hge x hx
            omega
    · intro e he
      rcases hE e he with h | h
      · exact Or.inl (by omega)
      · simp only [List.map_cons, List.mem_cons] at h
        rcases h with h | h
        · exact Or.inl (by omega)
        · exact Or.inr h

/-- The spacing step puts one space after each match that a unit other than space, line
feed and carriage return follows, and changes nothing else. -/
theorem insertNewlineAfterURL_eq_spacedAfter (text : GoString) :
    insertNewlineAfterURL text =
      spacedAfter ((FindAllStringIndex text).map Prod.snd) text 0 := by
  have hL : MatchesIn 0 text.length (FindAllStringIndex text) := by
    have := scanMatches_matchesIn text 0 0 (Nat.zero_le _)
    simpa [FindAllStringIndex] using this
  have hf := foldl_insertStep_spaced text ((FindAllStringIndex text).map Prod.snd)
    (FindAllStringIndex text) [] 0 hL (Nat.zero_le _) (fun e he => Or.inr he)
    (fun m hm => List.mem_map.mpr ⟨m, hm, rfl⟩)
  have hb := (foldl_insertStep_bounds text (FindAllStringIndex text) [] 0 hL (Nat.zero_le _)).2
  simp only [List.drop_zero, List.nil_append] at hf
  rw [← hf]
  unfold insertNewlineAfterURL
  simp only []
  split
  · rename_i h0
    have : FindAllStringIndex text = [] := List.length_eq_zero.mp h0
    simp [this]
  · split
    · have : slice text ((FindAllStringIndex text).foldl (insertStep text) ([], 0)).2
          text.length = text.drop ((FindAllStringIndex text).foldl (insertStep text) ([], 0)).2 := by
        simp [slice]
      rw [this]
    · rename_i hlt
      rw [List.drop_of_length_le (by omega), List.append_nil]

/-! ### The matches are the leftmost shortest words of the pattern -/

theorem isPrefixOf_append_self (p rest : GoString) : p.isPrefixOf (p ++ rest) = true :=
  List.isPrefixOf_iff_prefix.mpr (List.prefix_append p rest)

theorem matchTail_sound (s : GoString) (n : Nat) (h : matchTail s = some n) :
    ∃ mid : GoString, (∀ c ∈ mid, GoChar.isRegexSpace c = false) ∧
      s.take n = mid ++ lit ".shtml" ∧ n = mid.length + 6 := by
  induction s generalizing n with
  | nil => simp [matchTail] at h
  | cons c cs ih =>
    unfold matchTail at h
    split at h
    · rename_i hp
      simp only [Option.some.injEq] at h
      subst h
      obtain ⟨t, ht⟩ := List.isPrefixOf_iff_prefix.mp hp
      refine ⟨[], by simp, ?_, rfl⟩
      rw [← ht]
      have h6 : (lit ".shtml").length = 6 := rfl
      rw [List.take_append_of_le_length (by omega), List.take_of_length_le (by omega)]
      rfl
    · split at h
      · simp at h
      · rename_i hsp
        cases hm : matchTail cs with
        | none => simp [hm] at h
        | some k =>
          simp only [hm, Option.map_some', Option.some.injEq] at h
          subst h
          obtain ⟨mid, hmid, htake, hk⟩ := ih k hm
          refine ⟨c :: mid, ?_, ?_, by simp [hk]⟩
          · intro d hd
            rcases List.mem_cons.mp hd with e | e
            · subst e; simpa using hsp
            · exact hmid d e
          · simp [List.take_succ_cons, htake]

theorem matchTail_cons (c : GoChar) (cs : GoString) :
    matchTail (c :: cs) =
      if (lit ".shtml").isPrefixOf (c :: cs) = true then some 6
      else if c.isRegexSpace = true then none
      else (matchTail cs).map (· + 1) := by
  simp only [matchTail]

theorem matchTail_complete (mid rest : GoString)
    (hmid : ∀ c ∈ mid, GoChar.isRegexSpace c = false) :
    ∃ n, matchTail (mid ++ lit ".shtml" ++ rest) = some n ∧ n ≤ mid.length + 6 := by
  induction mid with
  | nil =>
    refine ⟨6, ?_, by simp⟩
    have hp : (lit ".shtml").isPrefixOf (GoChar.rune '.' :: (lit "shtml" ++ rest)) = true :=
      isPrefixOf_append_self (lit ".shtml") rest
    show matchTail (GoChar.rune '.' :: (lit "shtml" ++ rest)) = some 6
    rw [matchTail_cons, if_pos hp]
  | cons c mid ih =>
    obtain ⟨n, hn, hle⟩ := ih (fun d hd => hmid d (List.mem_cons_of_mem _ hd))
    have hc : GoChar.isRegexSpace c = false := hmid c (List.mem_cons_self _ _)
    show ∃ n, matchTail (c :: (mid ++ lit ".shtml" ++ rest)) = some n ∧ _
    rw [matchTail_cons]
    split
    · exact ⟨6, rfl, by simp⟩
    · rw [if_neg (by simp [hc]), hn]
      exact ⟨n + 1, rfl, by simp only [List.length_cons]; omega⟩

theorem matchHere_sound (s : GoString) (n : Nat) (h : matchHere s = some n) :
    InPattern (s.take n) := by
  unfold matchHere at h
  split at h
  · rename_i hp
    obtain ⟨t, ht⟩ := List.isPrefixOf_iff_prefix.mp hp
    cases hm : matchTail (s.drop 8) with
    | none => simp [hm] at h
    | some k =>
      simp only [hm, Option.map_some', Option.some.injEq] at h
      subst h
      obtain ⟨mid, hmid, htake, _⟩ := matchTail_sound _ k hm
      refine ⟨mid, hmid, Or.inr ?_⟩
      have h8 : (lit "https://").length = 8 := rfl
      rw [show k + 8 = 8 + k by omega, List.take_add, htake, ← ht,
        List.take_append_of_le_length (by omega), List.take_of_length_le (by omega),
        List.append_assoc]
  · split at h
    · rename_i hp
      obtain ⟨t, ht⟩ := List.isPrefixOf_iff_prefix.mp hp
      cases hm : matchTail (s.drop 7) with
      | none => simp [hm] at h
      | some k =>
        simp only [hm, Option.map_some', Option.some.injEq] at h
        subst h
        obtain ⟨mid, hmid, htake, _⟩ := matchTail_sound _ k hm
        refine ⟨mid, hmid, Or.inl ?_⟩
        have h7 : (lit "http://").length = 7 := rfl
        rw [show k + 7 = 7 + k by omega, List.take_add, htake, ← ht,
          List.take_append_of_le_length (by omega), List.take_of_length_le (by omega),
          List.append_assoc]
    · simp at h

theorem matchHere_complete (w rest : GoString) (hw : InPattern w) :
    ∃ n, matchHere (w ++ rest) = some n ∧ n ≤ w.length := by
  obtain ⟨mid, hmid, hw | hw⟩ := hw
  · obtain ⟨n, hn, hle⟩ := matchTail_complete mid rest hmid
    have e : w ++ rest = lit "http://" ++ (mid ++ lit ".shtml" ++ rest) := by
      rw [hw]; simp [List.append_assoc]
    have h1 : (lit "https://").isPrefixOf (w ++ rest) = false := by
      rw [e]
      cases mid with
      | nil => rfl
      | cons c cs => simp [lit, List.isPrefixOf]
    have h2 : (lit "http://").isPrefixOf (w ++ rest) = true := by
      rw [e]; exact isPrefixOf_append_self _ _
    have h3 : (w ++ rest).drop 7 = mid ++ lit ".shtml" ++ rest := by
      rw [e]; rfl
    refine ⟨n + 7, ?_, ?_⟩
    · unfold matchHere
      rw [if_neg (by simp [h1]), if_pos h2, h3, hn]
      rfl
    · rw [hw]
      have h7 : (lit "http://").length = 7 := rfl
      have h6 : (lit ".shtml").length = 6 := rfl
      simp only [List.length_append, h7, h6]
      omega
  · obtain ⟨n, hn, hle⟩ := matchTail_complete mid rest hmid
    have e : w ++ rest = lit "https://" ++ (mid ++ lit ".shtml" ++ rest) := by
      rw [hw]; simp [List.append_assoc]
    have h2 : (lit "https://").isPrefixOf (w ++ rest) = true := by
      rw [e]; exact isPrefixOf_append_self _ _
    have h3 : (w ++ rest).drop 8 = mid ++ lit ".shtml" ++ rest := by
      rw [e]; rfl
    refine ⟨n + 8, ?_, ?_⟩
    · unfold matchHere
      rw [if_pos h2, h3, hn]
      rfl
    · rw [hw]
      have h8 : (lit "https://").length = 8 := rfl
      have h6 : (lit ".shtml").length = 6 := rfl
      simp only [List.length_append, h8, h6]
      omega

/-- Every reported match is what `matchHere` finds at its start. -/
theorem scanMatches_reported (s : GoString) (skip off : Nat) :
    ∀ m ∈ scanMatches s skip off,
      ∃ p n, m = (off + p, off + p + n) ∧ matchHere (s.drop p) = some n := by
  induction s generalizing skip off with
  | nil => intro m hm; simp [scanMatches] at hm
  | cons c cs ih =>
    intro m hm
    cases skip with
    | succ k =>
      simp only [scanMatches] at hm
      obtain ⟨p, n, hmn, hp⟩ := ih k (off + 1) m hm
      exact ⟨p + 1, n, by rw [hmn]; congr 1 <;> omega, by simpa using hp⟩
    | zero =>
      simp only [scanMatches] at hm
      cases hh : matchHere (c :: cs) with
      | none =>
        simp only [hh] at hm
        obtain ⟨p, n, hmn, hp⟩ := ih 0 (off + 1) m hm
        exact ⟨p + 1, n, by rw [hmn]; congr 1 <;> omega, by simpa using hp⟩
      | some n₀ =>
        simp only [hh, List.mem_cons] at hm
        rcases hm with e | hm
        · exact ⟨0, n₀, by rw [e]; rfl, by simpa using hh⟩
        · obtain ⟨p, n, hmn, hp⟩ := ih (n₀ - 1) (off + 1) m hm
          exact ⟨p + 1, n, by rw [hmn]; congr 1 <;> omega, by simpa using hp⟩

/-- Every word of the pattern in the text that starts at or after the units still to be
passed over starts inside a reported match. -/
theorem scanMatches_covers (s : GoString) (skip off : Nat) (pre w rest : GoString)
    (hs : s = pre ++ w ++ rest) (hskip : skip ≤ pre.length) (hw : InPattern w) :
    ∃ m ∈ scanMatches s skip off, m.1 ≤ off + pre.length ∧ off + pre.length < m.2 := by
  induction s generalizing skip off pre with
  | nil =>
    obtain ⟨n, hn, _⟩ := matchHere_complete w rest hw
    have hpre : pre = [] := by
      cases pre with
      | nil => rfl
      | cons x xs => simp at hs
    subst hpre
    have : w ++ rest = [] := by simpa using hs.symm
    rw [this] at hn
    simp [matchHere, lit, List.isPrefixOf] at hn
  | cons c cs ih =>
    cases skip with
    | succ k =>
      cases pre with
      | nil => simp at hskip
      | cons x pre' =>
        simp only [List.cons_append, List.cons.injEq] at hs
        obtain ⟨m, hm, h1, h2⟩ := ih k (off + 1) pre' hs.2 (by simpa using hskip)
        refine ⟨m, by simpa [scanMatches] using hm, ?_, ?_⟩
        · simp only [List.length_cons]; omega
        · simp only [List.length_cons]; omega
    | zero =>
      simp only [scanMatches]
      cases hh : matchHere (c :: cs) with
      | none =>
        cases pre with
        | nil =>
          obtain ⟨n, hn, _⟩ := matchHere_complete w rest hw
          rw [List.nil_append] at hs
          rw [← hs, hh] at hn
          cases hn
        | cons x pre' =>
          simp only [List.cons_append, List.cons.injEq] at hs
          obtain ⟨m, hm, h1, h2⟩ := ih 0 (off + 1) pre' hs.2 (Nat.zero_le _)
          refine ⟨m, hm, ?_, ?_⟩
          · simp only [List.length_cons]; omega
          · simp only [List.length_cons]; omega
      | some n₀ =>
        have hb := matchHere_bounds _ n₀ hh
        by_cases hp : pre.length < n₀
        · exact ⟨(off, off + n₀), List.mem_cons_self _ _, by simp, by simp only []; omega⟩
        · cases pre with
          | nil => simp only [List.length_nil] at hp; omega
          | cons x pre' =>
            simp only [List.cons_append, List.cons.injEq] at hs
            simp only [List.length_cons] at hp
            obtain ⟨m, hm, h1, h2⟩ := ih (n₀ - 1) (off + 1) pre' hs.2 (by omega)
            refine ⟨m, List.mem_cons_of_mem _ hm, ?_, ?_⟩
            · simp only [List.length_cons]; omega
            · simp only [List.length_cons]; omega

/-- The matches reported for a text: each is a word of the pattern, the shortest one at
its start, and every word of the pattern in the text starts inside one of them. -/
theorem findAll_characterised (t : GoString) :
    (∀ m ∈ FindAllStringIndex t,
      InPattern (slice t m.1 m.2) ∧ ∀ k, k < m.2 → ¬ InPattern (slice t m.1 k)) ∧
    (∀ p q, p ≤ q → q ≤ t.length → InPattern (slice t p q) →
      ∃ m ∈ FindAllStringIndex t, m.1 ≤ p ∧ p < m.2) := by
  constructor
  · intro m hm
    obtain ⟨p, n, hmn, hp⟩ := scanMatches_reported t 0 0 m hm
    simp only [Nat.zero_add] at hmn
    subst hmn
    have hs : ∀ k, slice t p k = (t.drop p).take (k - p) := fun k => rfl
    constructor
    · rw [hs, show p + n - p = n by omega]
      exact matchHere_sound _ n hp
    · intro k hk hin
      rw [hs] at hin
      obtain ⟨n', hn', hle⟩ := matchHere_complete _ ((t.drop p).drop (k - p)) hin
      rw [List.take_append_drop, hp] at hn'
      simp only [Option.some.injEq] at hn'
      have : ((t.drop p).take (k - p)).length ≤ k - p := by simp
      have hb := matchHere_bounds _ n hp
      simp only at hk
      omega
  · intro p q hpq hq hin
    have hs : t = t.take p ++ slice t p q ++ t.drop q := by
      rw [take_append_slice t p q hpq, List.take_append_drop]
    have hlen : (t.take p).length = p := by simp; omega
    obtain ⟨m, hm, h1, h2⟩ := scanMatches_covers t 0 0 (t.take p) (slice t p q) (t.drop q) hs
      (Nat.zero_le _) hin
    rw [hlen] at h1 h2
    exact ⟨m, hm, by omega, by omega⟩

/-- C15 as stated fails on the code: a tab is a whitespace character, and after the
match in `http://x.shtml`, tab, `more` a space is inserted all the same. -/
theorem C15_space_inserted_before_tab :
    insertNewlineAfterURL (lit "http://x.shtml\tmore") = lit "http://x.shtml \tmore" := by
  decide

/-- C15, amended: for every text, `insertNewlineAfterURL` gives the text with exactly one
space inserted immediately after each match of the pattern whose following unit exists
and is none of space, line feed and carriage return; nothing is inserted after a match
that one of these three follows or that ends the text, and every unit of the text is
kept.  The matches lie in order without overlap; each is a word of the pattern and the
shortest one at its start; and every word of the pattern in the text starts inside a
match, so that none further left is passed over.  So `http://x.shtmlmore` becomes
`http://x.shtml more`. -/
theorem C15_one_space_after_each_match (t : GoString) :
    insertNewlineAfterURL t = spacedAfter ((FindAllStringIndex t).map Prod.snd) t 0 ∧
    MatchesIn 0 t.length (FindAllStringIndex t) ∧
    (∀ m ∈ FindAllStringIndex t,
      InPattern (slice t m.1 m.2) ∧ ∀ k, k < m.2 → ¬ InPattern (slice t m.1 k)) ∧
    (∀ p q, p ≤ q → q ≤ t.length → InPattern (slice t p q) →
      ∃ m ∈ FindAllStringIndex t, m.1 ≤ p ∧ p < m.2) ∧
    insertNewlineAfterURL (lit "http://x.shtmlmore") = lit "http://x.shtml more" := by
  refine ⟨insertNewlineAfterURL_eq_spacedAfter t, ?_, (findAll_characterised t).1,
    (findAll_characterised t).2, by decide⟩
  have := scanMatches_matchesIn t 0 0 (Nat.zero_le _)
  simpa [FindAllStringIndex] using this

/-- C16 as stated fails on the code: the text is changed. -/
theorem C16_text_is_changed :
    insertNewlineAfterURL (lit "...see http://x.shtml.more") ≠
      lit "...see http://x.shtml.more" := by
  decide

/-- C16, amended: for `...see http://x.shtml.more` the match is `http://x.shtml`, the
unit after it is `.`, and the spacing step inserts one space between them. -/
theorem C16_space_before_dot_more :
    FindAllStringIndex (lit "...see http://x.shtml.more") = [(7, 21)] ∧
      insertNewlineAfterURL (lit "...see http://x.shtml.more") =
        lit "...see http://x.shtml .more" := by
  decide

/-! ### The closing tag appended by the repair -/

theorem isPrefixOf_open_append (c : GoChar) (cs : GoString) :
    (lit "<a").isPrefixOf (c :: (cs ++ lit "</a>")) = (lit "<a").isPrefixOf (c :: cs) := by
  cases cs with
  | nil => simp [lit, List.isPrefixOf]
  | cons d ds => simp [lit, List.isPrefixOf]

theorem isPrefixOf_close_append (c : GoChar) (cs : GoString) :
    (lit "</a>").isPrefixOf (c :: (cs ++ lit "</a>")) = (lit "</a>").isPrefixOf (c :: cs) := by
  rcases cs with _ | ⟨d1, _ | ⟨d2, _ | ⟨d3, ds⟩⟩⟩ <;> simp [lit, List.isPrefixOf]

theorem countFrom_cons_zero (p : GoString) (c : GoChar) (cs : GoString) :
    countFrom p (c :: cs) 0 =
      if p.isPrefixOf (c :: cs) = true then 1 + countFrom p cs (p.length - 1)
      else countFrom p cs 0 := by
  simp only [countFrom]

theorem countFrom_cons_succ (p : GoString) (c : GoChar) (cs : GoString) (k : Nat) :
    countFrom p (c :: cs) (k + 1) = countFrom p cs k := by
  simp only [countFrom]

theorem countFrom_open_append (s : GoString) (skip : Nat) (h : skip ≤ s.length) :
    countFrom (lit "<a") (s ++ lit "</a>") skip = countFrom (lit "<a") s skip := by
  induction s generalizing skip with
  | nil =>
    have : skip = 0 := by simpa using h
    subst this
    decide
  | cons c cs ih =>
    cases skip with
    | succ k =>
      rw [List.cons_append, countFrom_cons_succ, countFrom_cons_succ]
      exact ih k (by simpa using h)
    | zero =>
      rw [List.cons_append, countFrom_cons_zero, countFrom_cons_zero, isPrefixOf_open_append]
      split
      · rename_i hp
        have hl := length_le_of_isPrefixOf _ _ hp
        have h2 : (lit "<a").length = 2 := rfl
        simp only [List.length_cons, h2] at hl
        rw [ih _ (by rw [h2]; omega)]
      · exact ih 0 (Nat.zero_le _)

theorem countFrom_close_append (s : GoString) (skip : Nat) (h : skip ≤ s.length) :
    countFrom (lit "</a>") (s ++ lit "</a>") skip = countFrom (lit "</a>") s skip + 1 := by
  induction s generalizing skip with
  | nil =>
    have : skip = 0 := by simpa using h
    subst this
    decide
  | cons c cs ih =>
    cases skip with
    | succ k =>
      rw [List.cons_append, countFrom_cons_succ, countFrom_cons_succ]
      exact ih k (by simpa using h)
    | zero =>
      rw [List.cons_append, countFrom_cons_zero, countFrom_cons_zero, isPrefixOf_close_append]
      split
      · rename_i hp
        have hl := length_le_of_isPrefixOf _ _ hp
        have h4 : (lit "</a>").length = 4 := rfl
        simp only [List.length_cons, h4] at hl
        rw [ih _ (by rw [h4]; omega)]
        omega
      · exact ih 0 (Nat.zero_le _)

/-- Appending `</a>` adds one occurrence of `</a>` and none of `<a`. -/
theorem count_append_closing (s : GoString) :
    Count (s ++ lit "</a>") (lit "<a") = Count s (lit "<a") ∧
      Count (s ++ lit "</a>") (lit "</a>") = Count s (lit "</a>") + 1 := by
  have h1 : lit "<a" ≠ [] := by decide
  have h2 : lit "</a>" ≠ [] := by decide
  unfold Count
  rw [if_neg h1, if_neg h1, if_neg h2, if_neg h2]
  exact ⟨countFrom_open_append s 0 (Nat.zero_le _), countFrom_close_append s 0 (Nat.zero_le _)⟩

set_option maxRecDepth 100000 in
/-- C14 as stated fails on the code: in the 250 units `<a><a>` and 244 letters nothing
dangles and `<a` occurs twice, `</a>` never; `fixBrokenHTML` appends one `</a>`, and the
result has two `<a` and one `</a>`: it is not balanced. -/
theorem C14_one_closing_tag_for_two_open :
    (lit "<a><a>" ++ List.replicate 244 (GoChar.rune 'y')).length = 250 ∧
    fixBrokenHTML (lit "<a><a>" ++ List.replicate 244 (GoChar.rune 'y')) =
      lit "<a><a>" ++ List.replicate 244 (GoChar.rune 'y') ++ lit "</a>" ∧
    Count (fixBrokenHTML (lit "<a><a>" ++ List.replicate 244 (GoChar.rune 'y'))) (lit "<a") = 2 ∧
    Count (fixBrokenHTML (lit "<a><a>" ++ List.replicate 244 (GoChar.rune 'y'))) (lit "</a>")
      = 1 := by
  decide

/-- C14, amended: when, after the dangling fragment is dropped, `<a` occurs more often
than `</a>`, `fixBrokenHTML` appends exactly one `</a>`: the result has the same number
of `<a` and one more `</a>`, and it is balanced exactly when `<a` occurred once more
than `</a>`.  When `<a` does not occur more often than `</a>`, nothing is appended. -/
theorem C14_one_closing_tag_appended (s : GoString) :
    (Count (droppedDangling s) (lit "<a") > Count (droppedDangling s) (lit "</a>") →
      fixBrokenHTML s = droppedDangling s ++ lit "</a>" ∧
      Count (fixBrokenHTML s) (lit "<a") = Count (droppedDangling s) (lit "<a") ∧
      Count (fixBrokenHTML s) (lit "</a>") = Count (droppedDangling s) (lit "</a>") + 1 ∧
      (Count (fixBrokenHTML s) (lit "</a>") = Count (fixBrokenHTML s) (lit "<a") ↔
        Count (droppedDangling s) (lit "<a") = Count (droppedDangling s) (lit "</a>") + 1)) ∧
    (¬ Count (droppedDangling s) (lit "<a") > Count (droppedDangling s) (lit "</a>") →
      fixBrokenHTML s = droppedDangling s) := by
  constructor
  · intro h
    have e : fixBrokenHTML s = droppedDangling s ++ lit "</a>" := by
      rw [fixBrokenHTML_eq, if_pos h]
    obtain ⟨c1, c2⟩ := count_append_closing (droppedDangling s)
    rw [e]
    refine ⟨rfl, c1, c2, ?_⟩
    rw [c1, c2]
    constructor <;> intro h' <;> omega
  · intro h
    rw [fixBrokenHTML_eq, if_neg h]

/-! ## Properties of the feed fetcher -/

/-- C17 as stated fails on the code: the item has no content and no description, its
extension `summary` has one value, which is empty, and its extension `atom` has the
summary `x`; `getItemContent` returns the empty string although a later source provides
a non-empty value. -/
theorem C17_empty_although_summary_available :
    getItemContent emptySummaryItem = [] ∧
      firstExtensionValue emptySummaryItem (lit "atom") (lit "summary") = some (lit "x") := by
  decide

/-- C17, amended: `getItemContent` returns the content if it is not empty; else the
description if it is not empty; else the first value of the extension `summary` (name
empty) if that extension has a value; else the first value of the summary of the
extension `atom` if it has a value; else the empty string.  It returns the empty string
exactly when content and description are empty and the first extension that has a value
has an empty first value, or neither extension has a value. -/
theorem C17_content_priority (item : Item) :
    (item.Content ≠ [] → getItemContent item = item.Content) ∧
    (item.Content = [] → item.Description ≠ [] → getItemContent item = item.Description) ∧
    (item.Content = [] → item.Description = [] →
      ∀ v, firstExtensionValue item (lit "summary") (lit "") = some v →
        getItemContent item = v) ∧
    (item.Content = [] → item.Description = [] →
      firstExtensionValue item (lit "summary") (lit "") = none →
      ∀ v, firstExtensionValue item (lit "atom") (lit "summary") = some v →
        getItemContent item = v) ∧
    (item.Content = [] → item.Description = [] →
      firstExtensionValue item (lit "summary") (lit "") = none →
      firstExtensionValue item (lit "atom") (lit "summary") = none →
        getItemContent item = []) ∧
    (getItemContent item = [] ↔
      item.Content = [] ∧ item.Description = [] ∧
        (firstExtensionValue item (lit "summary") (lit "") = some [] ∨
          (firstExtensionValue item (lit "summary") (lit "") = none ∧
            (firstExtensionValue item (lit "atom") (lit "summary") = some [] ∨
              firstExtensionValue item (lit "atom") (lit "summary") = none)))) := by
  have key : getItemContent item =
      if item.Content ≠ [] then item.Content
      else if item.Description ≠ [] then item.Description
      else
        match firstExtensionValue item (lit "summary") (lit "") with
        | some v => v
        | none =>
          match firstExtensionValue item (lit "atom") (lit "summary") with
          | some v => v
          | none => [] := by
    unfold getItemContent firstExtensionValue
    by_cases hc : item.Content ≠ []
    · rw [if_pos hc, if_pos hc]
    · by_cases hd : item.Description ≠ []
      · rw [if_neg hc, if_pos hd, if_neg hc, if_pos hd]
      · rw [if_neg hc, if_neg hd, if_neg hc, if_neg hd]
        simp only []
        cases GoMap.get item.Extensions (lit "summary") with
        | none =>
          simp only []
          cases GoMap.get item.Extensions (lit "atom") with
          | none => rfl
          | some e2 =>
            simp only []
            rcases GoMap.get e2 (lit "summary") with _ | _ | ⟨v, _⟩ <;> rfl
        | some e1 =>
          simp only []
          rcases GoMap.get e1 (lit "") with _ | _ | ⟨v, _⟩
          · simp only []
            cases GoMap.get item.Extensions (lit "atom") with
            | none => rfl
            | some e2 =>
              simp only []
              rcases GoMap.get e2 (lit "summary") with _ | _ | ⟨v, _⟩ <;> rfl
          · simp only []
            cases GoMap.get item.Extensions (lit "atom") with
            | none => rfl
            | some e2 =>
              simp only []
              rcases GoMap.get e2 (lit "summary") with _ | _ | ⟨v, _⟩ <;> rfl
          · rfl
  rw [key]
  by_cases hc : item.Content = []
  · by_cases hd : item.Description = []
    · simp only [hc, hd, ne_eq, not_true_eq_false, if_false, not_false_eq_true, true_and,
        IsEmpty.forall_iff, true_implies]
      cases h1 : firstExtensionValue item (lit "summary") (lit "") with
      | some v => simp
      | none =>
        cases h2 : firstExtensionValue item (lit "atom") (lit "summary") with
        | some v => simp
        | none => simp
    · simp [hc, hd]
  · simp [hc]

/-! ## Properties of the crawl guard: single flight -/

theorem fetchAndSave_eq_guard_body (env : Collaborators) (p : Process) :
    fetchAndSave env p =
      if (fetchAndSaveGuard p).1 = true then fetchAndSaveBody env (fetchAndSaveGuard p).2
      else p := by
  unfold fetchAndSave fetchAndSaveGuard fetchAndSaveBody
  cases p.isFetching
  · cases env.LoadRemoteFriends with
    | error _ => rfl
    | ok friends => cases env.WriteToFile (env.CrawlArticles friends) <;> rfl
  · simp

theorem ginFetchHandler_cases (secretKey queryKey : GoString) (p : Process) :
    (queryKey ≠ secretKey → ginFetchHandler secretKey queryKey p = (403, false, p)) ∧
    (queryKey = secretKey → p.isFetching = true →
      ginFetchHandler secretKey queryKey p = (425, false, p)) ∧
    (queryKey = secretKey → p.isFetching = false →
      ginFetchHandler secretKey queryKey p = (200, true, { p with isFetching := true })) := by
  unfold ginFetchHandler
  refine ⟨fun h => by simp [h], fun h hf => by simp [h, hf], fun h hf => by simp [h, hf]⟩

/-- C12: a request whose key differs from the secret gets 403, leaves the busy flag and
the rest of the process as they are and starts no cycle; with the right key and the flag
set it gets 425 and starts no cycle; with the right key and the flag clear it gets 200,
the flag is set, and a cycle of the trigger path is started, to be completed by the
goroutine later. -/
theorem C12_trigger_handler_responses (secretKey queryKey : GoString) (c : Crawler) :
    (queryKey ≠ secretKey →
      ginFetchHandler secretKey queryKey c.proc = (403, false, c.proc) ∧
      c.step (.triggerRequest secretKey queryKey) = c) ∧
    (queryKey = secretKey → c.proc.isFetching = true →
      ginFetchHandler secretKey queryKey c.proc = (425, false, c.proc) ∧
      c.step (.triggerRequest secretKey queryKey) = c) ∧
    (queryKey = secretKey → c.proc.isFetching = false →
      ginFetchHandler secretKey queryKey c.proc =
        (200, true, { c.proc with isFetching := true }) ∧
      (c.proc.exitCode = none →
        c.step (.triggerRequest secretKey queryKey) =
          { proc := { c.proc with isFetching := true }, running := Path.trigger :: c.running })) := by
  obtain ⟨h1, h2, h3⟩ := ginFetchHandler_cases secretKey queryKey c.proc
  refine ⟨fun h => ⟨h1 h, ?_⟩, fun h hf => ⟨h2 h hf, ?_⟩, fun h hf => ⟨h3 h hf, ?_⟩⟩
  · unfold Crawler.step
    cases c.proc.exitCode with
    | some _ => rfl
    | none => simp only [h1 h]; rfl
  · unfold Crawler.step
    cases c.proc.exitCode with
    | some _ => rfl
    | none => simp only [h2 h hf]; rfl
  · intro he
    unfold Crawler.step
    simp only [he, h3 h hf]
    rfl

theorem step_of_exited (c : Crawler) (e : Event) (code : Nat)
    (h : c.proc.exitCode = some code) : c.step e = c := by
  unfold Crawler.step
  simp [h]

theorem step_schedulerTick (c : Crawler) (h : c.proc.exitCode = none) :
    c.step .schedulerTick =
      if c.proc.isFetching = true then c
      else { proc := { c.proc with isFetching := true },
             running := Path.scheduler :: c.running } := by
  unfold Crawler.step fetchAndSaveGuard
  simp only [h]
  cases c.proc.isFetching <;> simp

theorem step_triggerRequest (c : Crawler) (key : GoString) (h : c.proc.exitCode = none) :
    c.step (.triggerRequest key key) =
      if c.proc.isFetching = true then c
      else { proc := { c.proc with isFetching := true },
             running := Path.trigger :: c.running } := by
  unfold Crawler.step ginFetchHandler
  simp only [h]
  cases c.proc.isFetching <;> simp

/-- What an attempt to start a cycle does: nothing when the process has exited or the
flag is set; otherwise it sets the flag and one more cycle is running. -/
theorem step_startAttempt (c : Crawler) (a : Event) (ha : IsStartAttempt a) :
    ((c.proc.exitCode ≠ none ∨ c.proc.isFetching = true) → c.step a = c) ∧
    (c.proc.exitCode = none → c.proc.isFetching = false →
      (c.step a).proc = { c.proc with isFetching := true } ∧
      ∃ path, (c.step a).running = path :: c.running) := by
  constructor
  · intro h
    cases he : c.proc.exitCode with
    | some code => exact step_of_exited c a code he
    | none =>
      have hf : c.proc.isFetching = true := by
        rcases h with h | h
        · exact absurd he h
        · exact h
      rcases ha with ha | ⟨key, ha⟩
      · rw [ha, step_schedulerTick c he, if_pos hf]
      · rw [ha, step_triggerRequest c key he, if_pos hf]
  · intro he hf
    have hf' : ¬ c.proc.isFetching = true := by simp [hf]
    rcases ha with ha | ⟨key, ha⟩
    · rw [ha, step_schedulerTick c he, if_neg hf']
      exact ⟨rfl, _, rfl⟩
    · rw [ha, step_triggerRequest c key he, if_neg hf']
      exact ⟨rfl, _, rfl⟩

theorem singleton_of_mem (l : List Path) (x : Path) (h1 : l.length ≤ 1) (hm : x ∈ l) :
    l = [x] := by
  cases l with
  | nil => simp at hm
  | cons y ys =>
    cases ys with
    | nil =>
      simp only [List.mem_singleton] at hm
      rw [hm]
    | cons z zs => simp at h1

theorem inv_step (c : Crawler) (e : Event) (h : c.Inv) : (c.step e).Inv := by
  obtain ⟨h1, h2, h3⟩ := h
  cases he : c.proc.exitCode with
  | some code => rw [step_of_exited c e code he]; exact ⟨h1, h2, h3⟩
  | none =>
    have idle : c.proc.isFetching = false → c.running = [] := by
      intro hf
      by_contra hne
      have := h2 hne
      rw [hf] at this
      cases this
    cases e with
    | schedulerTick =>
      rw [step_schedulerTick c he]
      split
      · exact ⟨h1, h2, h3⟩
      · rename_i hf
        have hr := idle (by simpa using hf)
        exact ⟨by simp [hr], fun _ => rfl, fun _ _ => by simp⟩
    | triggerRequest secretKey queryKey =>
      by_cases hk : queryKey = secretKey
      · subst hk
        rw [step_triggerRequest c queryKey he]
        split
        · exact ⟨h1, h2, h3⟩
        · rename_i hf
          have hr := idle (by simpa using hf)
          exact ⟨by simp [hr], fun _ => rfl, fun _ _ => by simp⟩
      · have : c.step (.triggerRequest secretKey queryKey) = c := by
          unfold Crawler.step ginFetchHandler
          simp [he, hk]
        rw [this]
        exact ⟨h1, h2, h3⟩
    | schedulerDone env =>
      unfold Crawler.step
      simp only [he]
      split
      · rename_i hm
        have hr : c.running = [Path.scheduler] := singleton_of_mem _ _ h1 hm
        have herase : c.running.erase Path.scheduler = [] := by rw [hr]; rfl
        rw [herase]
        refine ⟨by simp, fun hne => absurd rfl hne, ?_⟩
        intro hex hfl
        exfalso
        unfold fetchAndSaveBody at hex hfl
        cases hl : env.LoadRemoteFriends with
        | error _ => simp [hl] at hex
        | ok friends =>
          simp only [hl] at hex hfl
          cases hw : env.WriteToFile (env.CrawlArticles friends) with
          | error _ => simp [hw] at hex
          | ok _ => simp [hw] at hfl
      · exact ⟨h1, h2, h3⟩
    | triggerDone env =>
      unfold Crawler.step
      simp only [he]
      split
      · rename_i hm
        have hr : c.running = [Path.trigger] := singleton_of_mem _ _ h1 hm
        have herase : c.running.erase Path.trigger = [] := by rw [hr]; rfl
        rw [herase]
        refine ⟨by simp, fun hne => absurd rfl hne, ?_⟩
        intro _ hfl
        exfalso
        unfold ginFetchGoroutine at hfl
        cases hl : env.LoadRemoteFriends with
        | error _ => simp [hl] at hfl
        | ok friends =>
          simp only [hl] at hfl
          cases hw : env.WriteToFile (env.CrawlArticles friends) with
          | error _ => simp [hw] at hfl
          | ok _ => simp [hw] at hfl
      · exact ⟨h1, h2, h3⟩

theorem inv_reachable (c : Crawler) (h : Reachable c) : c.Inv := by
  obtain ⟨es, rfl⟩ := h
  unfold Crawler.run
  have : ∀ (es : List Event) (c₀ : Crawler), c₀.Inv → (es.foldl Crawler.step c₀).Inv := by
    intro es
    induction es with
    | nil => intro c₀ h; exact h
    | cons e es ih => intro c₀ h; exact ih _ (inv_step c₀ e h)
  exact this es _ ⟨by simp [Crawler.init], fun h => absurd rfl h, fun _ h => by
    simp [Crawler.init] at h⟩

/-- An attempt starts a cycle exactly when the process is live and the flag is clear. -/
theorem starts_iff (c : Crawler) (a : Event) (ha : IsStartAttempt a) :
    c.starts a = true ↔ c.proc.exitCode = none ∧ c.proc.isFetching = false := by
  obtain ⟨h1, h2⟩ := step_startAttempt c a ha
  unfold Crawler.starts
  constructor
  · intro hs
    have hs' : (c.step a).running.length = c.running.length + 1 := by simpa using hs
    by_contra hn
    have : c.proc.exitCode ≠ none ∨ c.proc.isFetching = true := by
      by_cases he : c.proc.exitCode = none
      · right
        cases hf : c.proc.isFetching with
        | true => rfl
        | false => exact absurd ⟨he, hf⟩ hn
      · exact Or.inl he
    rw [h1 this] at hs'
    omega
  · rintro ⟨he, hf⟩
    obtain ⟨_, path, hp⟩ := h2 he hf
    simp [hp]

/-- C11 as stated fails on the code: while the cycle started by a scheduler tick is
running, a trigger request with the right key and a further scheduler tick are two start
attempts with no completion between them, and neither starts a cycle. -/
theorem C11_no_start_while_running :
    (Crawler.run [.schedulerTick]).running = [Path.scheduler] ∧
    (Crawler.run [.schedulerTick]).starts (.triggerRequest (lit "k") (lit "k")) = false ∧
    ((Crawler.run [.schedulerTick]).step (.triggerRequest (lit "k") (lit "k"))).starts
      .schedulerTick = false := by
  decide

/-- C11, amended: in every reachable state at most one crawl cycle is running.  Of two
start attempts (scheduler ticks, or trigger requests with the right key) made with no
step between them, never both start a cycle, and one that does not start leaves the
whole state as it is: nothing is loaded, crawled or written.  When the process is live
and no cycle is running before the two, exactly one starts, the first; the second
changes nothing, and a trigger request then is answered 425. -/
theorem C11_single_flight (c : Crawler) (hc : Reachable c) :
    c.running.length ≤ 1 ∧
    ∀ a1 a2, IsStartAttempt a1 → IsStartAttempt a2 →
      ¬ (c.starts a1 = true ∧ (c.step a1).starts a2 = true) ∧
      (c.starts a1 = false → c.step a1 = c) ∧
      ((c.step a1).starts a2 = false → (c.step a1).step a2 = c.step a1) ∧
      (c.proc.exitCode = none → c.running = [] →
        c.starts a1 = true ∧ (c.step a1).starts a2 = false ∧
        (c.step a1).step a2 = c.step a1 ∧
        ∀ key, (ginFetchHandler key key (c.step a1).proc).1 = 425) := by
  obtain ⟨i1, i2, i3⟩ := inv_reachable c hc
  refine ⟨i1, ?_⟩
  intro a1 a2 ha1 ha2
  have unchanged : ∀ (d : Crawler) (a : Event), IsStartAttempt a → d.starts a = false →
      d.step a = d := by
    intro d a ha hs
    apply (step_startAttempt d a ha).1
    by_cases he : d.proc.exitCode = none
    · right
      cases hf : d.proc.isFetching with
      | true => rfl
      | false =>
        have := (starts_iff d a ha).mpr ⟨he, hf⟩
        rw [hs] at this
        cases this
    · exact Or.inl he
  have after : c.starts a1 = true → (c.step a1).proc.isFetching = true := by
    intro hs
    obtain ⟨he, hf⟩ := (starts_iff c a1 ha1).mp hs
    rw [((step_startAttempt c a1 ha1).2 he hf).1]
  have second : c.starts a1 = true → (c.step a1).starts a2 = false := by
    intro hs
    cases h2 : (c.step a1).starts a2 with
    | false => rfl
    | true =>
      have := ((starts_iff _ a2 ha2).mp h2).2
      rw [after hs] at this
      cases this
  refine ⟨?_, unchanged c a1 ha1, unchanged _ a2 ha2, ?_⟩
  · rintro ⟨hs1, hs2⟩
    rw [second hs1] at hs2
    cases hs2
  · intro he hr
    have hf : c.proc.isFetching = false := by
      cases hf : c.proc.isFetching with
      | false => rfl
      | true => exact absurd hr (i3 he hf)
    have hs1 := (starts_iff c a1 ha1).mpr ⟨he, hf⟩
    refine ⟨hs1, second hs1, unchanged _ a2 ha2 (second hs1), ?_⟩
    intro key
    rw [((ginFetchHandler_cases key key _).2.1 rfl (after hs1))]

/-- C11 at the start of the program: a scheduler tick starts a cycle, and a trigger
request with the right key made before the cycle completes changes nothing. -/
theorem C11_single_flight_witness :
    Crawler.init.starts .schedulerTick = true ∧
      (Crawler.init.step .schedulerTick).step (.triggerRequest (lit "k") (lit "k")) =
        Crawler.init.step .schedulerTick :=
  ⟨(((C11_single_flight Crawler.init ⟨[], rfl⟩).2 .schedulerTick
      (.triggerRequest (lit "k") (lit "k")) (Or.inl rfl) (Or.inr ⟨_, rfl⟩)).2.2.2 rfl rfl).1,
    (((C11_single_flight Crawler.init ⟨[], rfl⟩).2 .schedulerTick
      (.triggerRequest (lit "k") (lit "k")) (Or.inl rfl) (Or.inr ⟨_, rfl⟩)).2.2.2 rfl rfl).2.2.1⟩

/-! ### The retry loop and the item loop -/

theorem requestLoop_attempts_le (env : FetchEnv) (url : GoString) (remaining attempt : Nat)
    (st : LoopState) :
    (requestLoop env url remaining attempt st).attempts ≤ st.attempts + remaining := by
  induction remaining generalizing attempt st with
  | zero => simp [requestLoop]
  | succ n ih =>
    unfold requestLoop
    cases env.NewRequest url with
    | some e => simp
    | none =>
      simp only []
      cases env.Do attempt with
      | response r => simp
      | transportError e =>
        simp only []
        have := ih (attempt + 1) { resp := none, err := some e, attempts := st.attempts + 1 }
        simp only at this
        omega

/-- The loop ends at the first response: after `k` transport errors and a response it
has made `k + 1` calls and holds the response and no error. -/
theorem requestLoop_response (env : FetchEnv) (url : GoString)
    (hreq : env.NewRequest url = none) (remaining attempt : Nat) (st : LoopState)
    (k : Nat) (r : HTTPResponse) (hk : k < remaining)
    (hprev : ∀ j, j < k → ∃ e, env.Do (attempt + j) = .transportError e)
    (hresp : env.Do (attempt + k) = .response r) :
    requestLoop env url remaining attempt st =
      { resp := some r, err := none, attempts := st.attempts + k + 1 } := by
  induction remaining generalizing attempt st k with
  | zero => omega
  | succ n ih =>
    unfold requestLoop
    simp only [hreq]
    cases k with
    | zero =>
      simp only [Nat.add_zero] at hresp
      simp [hresp]
    | succ k' =>
      obtain ⟨e, he⟩ := hprev 0 (by omega)
      simp only [Nat.add_zero] at he
      simp only [he]
      rw [ih (attempt + 1) _ k' (by omega)
        (fun j hj => by
          have := hprev (j + 1) (by omega)
          rwa [show attempt + (j + 1) = attempt + 1 + j by omega] at this)
        (by rwa [show attempt + (k' + 1) = attempt + 1 + k' by omega] at hresp)]
      simp only [LoopState.mk.injEq, true_and]
      omega

/-- After transport errors in all its rounds the loop has made as many calls as rounds
and holds an error and no response. -/
theorem requestLoop_errors (env : FetchEnv) (url : GoString)
    (hreq : env.NewRequest url = none) (remaining attempt : Nat) (st : LoopState)
    (hpos : 0 < remaining)
    (herr : ∀ j, j < remaining → ∃ e, env.Do (attempt + j) = .transportError e) :
    ∃ e, requestLoop env url remaining attempt st =
      { resp := none, err := some e, attempts := st.attempts + remaining } := by
  induction remaining generalizing attempt st with
  | zero => omega
  | succ n ih =>
    obtain ⟨e, he⟩ := herr 0 (by omega)
    simp only [Nat.add_zero] at he
    unfold requestLoop
    simp only [hreq, he]
    cases n with
    | zero => exact ⟨e, by simp [requestLoop]⟩
    | succ m =>
      obtain ⟨e', he'⟩ := ih (attempt + 1)
        { resp := none, err := some e, attempts := st.attempts + 1 } (by omega)
        (fun j hj => by
          have := herr (j + 1) (by omega)
          rwa [show attempt + (j + 1) = attempt + 1 + j by omega] at this)
      refine ⟨e', ?_⟩
      rw [he']
      simp only [LoopState.mk.injEq, true_and]
      omega

theorem fetch_attempts (env : FetchEnv) (friend : Friend) (maxCount : Int) :
    (FetchFriendArticles env friend maxCount).2 =
      (requestLoop env friend.RSS (maxRetry + 1) 0
        { resp := none, err := none, attempts := 0 }).attempts := by
  unfold FetchFriendArticles
  simp only []
  split
  · rfl
  · split
    · rfl
    · split
      · rfl
      · split
        · rfl
        · split <;> rfl

/-- The fetch after a loop that ended with a response. -/
theorem fetch_of_response (env : FetchEnv) (friend : Friend) (maxCount : Int)
    (r : HTTPResponse) (n : Nat)
    (h : requestLoop env friend.RSS (maxRetry + 1) 0
      { resp := none, err := none, attempts := 0 } =
        { resp := some r, err := none, attempts := n }) :
    FetchFriendArticles env friend maxCount =
      if r.StatusCode ≠ 200 then (.error (.badStatus r.StatusCode), n)
      else
        match env.ParseFeed r.Body with
        | .error e => (.error (.parseFailed e), n)
        | .ok items =>
          if maxCount < 0 ∨ env.MaxCap < maxCount then (.panic, n)
          else (.ok (collectArticles env friend maxCount items 0 []), n) := by
  unfold FetchFriendArticles
  simp only [h]

theorem collectArticles_eq (env : FetchEnv) (friend : Friend) (maxCount : Int)
    (hmax : 0 ≤ maxCount) (items : List Item) (i : Nat) (articles : List Article) :
    collectArticles env friend maxCount items i articles =
      articles ++ ((items.enumFrom i).take (maxCount.toNat - i)).map
        (fun p => itemArticle env friend p.1 p.2) := by
  induction items generalizing i articles with
  | nil => simp [collectArticles]
  | cons item rest ih =>
    unfold collectArticles
    by_cases h : (i : Int) ≥ maxCount
    · rw [if_pos h]
      have : maxCount.toNat - i = 0 := by omega
      simp [this]
    · rw [if_neg h, ih]
      have : maxCount.toNat - i = (maxCount.toNat - (i + 1)) + 1 := by omega
      rw [this, List.enumFrom_cons, List.take_succ_cons]
      simp

/-- C13, amended: when the request can be built, a response with status 200 is received
within the three attempts, its body parses to the feed items `items`, and `maxCount` is
at least 0 and at most the largest capacity `make` can allocate, `FetchFriendArticles`
returns articles and no error: exactly `min(len(items), maxCount)` of them, the `i`-th
being the article made of the `i`-th item, with that item's title and link. -/
theorem C13_articles_are_mapped_feed_head (env : FetchEnv) (friend : Friend)
    (maxCount : Int) (items : List Item) (body : GoString) (k : Nat)
    (hmax : 0 ≤ maxCount) (hcap : maxCount ≤ env.MaxCap)
    (hreq : env.NewRequest friend.RSS = none) (hk : k < 3)
    (hprev : ∀ j, j < k → ∃ e, env.Do j = .transportError e)
    (hresp : env.Do k = .response { StatusCode := 200, Body := body })
    (hparse : env.ParseFeed body = .ok items) :
    ∃ articles, (FetchFriendArticles env friend maxCount).1 = .ok articles ∧
      articles.length = min items.length maxCount.toNat ∧
      ∀ i, i < articles.length →
        ∃ item, items[i]? = some item ∧
          articles[i]? = some (itemArticle env friend i item) ∧
          (itemArticle env friend i item).Title = item.Title ∧
          (itemArticle env friend i item).Link = item.Link := by
  have hloop := requestLoop_response env friend.RSS hreq (maxRetry + 1) 0
    { resp := none, err := none, attempts := 0 } k _ (by unfold maxRetry; omega)
    (fun j hj => by simpa using hprev j hj) (by simpa using hresp)
  have hfetch := fetch_of_response env friend maxCount _ _ hloop
  simp only [ne_eq, not_true_eq_false, if_false, hparse,
    show ¬ (maxCount < 0 ∨ env.MaxCap < maxCount) by omega] at hfetch
  rw [collectArticles_eq env friend maxCount hmax] at hfetch
  refine ⟨_, by rw [hfetch], ?_, ?_⟩
  · simp [Nat.min_comm]
  · intro i hi
    simp only [List.nil_append, Nat.sub_zero, List.length_map, List.length_take,
      List.enumFrom_length, lt_min_iff] at hi
    have hlt : i < items.length := hi.2
    refine ⟨items[i], by simp [hlt], ?_, rfl, rfl⟩
    simp [List.getElem?_take, hi.1, List.getElem?_enumFrom, hlt]

/-- C13 with the request answered in the third attempt, a feed of two items and
`maxCount` 1: one article, with the title of the first item. -/
theorem C13_articles_witness :
    ∃ articles,
      (FetchFriendArticles (retryEnv 200 [titledItem (lit "a"), titledItem (lit "b")])
        someFriend 1).1 = .ok articles ∧
      articles.length = min 2 1 :=
  (C13_articles_are_mapped_feed_head (retryEnv 200 [titledItem (lit "a"), titledItem (lit "b")])
    someFriend 1 [titledItem (lit "a"), titledItem (lit "b")] (lit "feed") 2 (by decide)
    (by decide) rfl (by decide)
    (fun j hj => ⟨lit "timeout", by
      have : j = 0 ∨ j = 1 := by omega
      rcases this with h | h <;> subst h <;> rfl⟩)
    rfl rfl).imp fun _ h => ⟨h.1, h.2.1⟩

/-- C13 as stated fails for a large `maxCount`: with the request answered with status 200
in the third attempt, a feed of two items that parses, and `maxCount` the largest `int`
of a 64-bit system (which is at least 0), `make([]model.Article, 0, maxCount)` panics
with `makeslice: cap out of range`; the call returns no articles at all, so not the
`min(2, maxCount) = 2` mapped items of the claim. -/
theorem C13_huge_capacity_panics :
    (0 : Int) ≤ 9223372036854775807 ∧
    (FetchFriendArticles (retryEnv 200 [titledItem (lit "a"), titledItem (lit "b")])
      someFriend 9223372036854775807).1 = .panic ∧
    ∀ articles,
      (FetchFriendArticles (retryEnv 200 [titledItem (lit "a"), titledItem (lit "b")])
        someFriend 9223372036854775807).1 ≠ .ok articles := by
  have h : (FetchFriendArticles (retryEnv 200 [titledItem (lit "a"), titledItem (lit "b")])
      someFriend 9223372036854775807).1 = .panic := by decide
  refine ⟨by decide, h, fun articles => ?_⟩
  rw [h]
  exact fun e => FetchResult.noConfusion e

theorem requestLoop_no_request (env : FetchEnv) (url : GoString) (e : GoString)
    (hreq : env.NewRequest url = some e) (remaining attempt : Nat) (st : LoopState) :
    requestLoop env url (remaining + 1) attempt st = { st with err := some e } := by
  unfold requestLoop
  simp only [hreq]

/-- C18: `FetchFriendArticles` never makes more than 3 attempts.  When the request can be
built, it stops at the first attempt that is not a transport error, having made exactly
the attempts up to it; if that response has a status other than 200, the fetch returns
an error and no articles; after three transport errors in a row it has made 3 attempts
and returns an error and no articles.  When the request cannot be built, it makes no
attempt and returns an error and no articles. -/
theorem C18_retry_on_transport_error_only (env : FetchEnv) (friend : Friend)
    (maxCount : Int) :
    (FetchFriendArticles env friend maxCount).2 ≤ 3 ∧
    (env.NewRequest friend.RSS = none →
      (∀ k r, k < 3 → (∀ j, j < k → ∃ e, env.Do j = .transportError e) →
        env.Do k = .response r →
          (FetchFriendArticles env friend maxCount).2 = k + 1 ∧
          (r.StatusCode ≠ 200 →
            (FetchFriendArticles env friend maxCount).1 = .error (.badStatus r.StatusCode))) ∧
      ((∀ j, j < 3 → ∃ e, env.Do j = .transportError e) →
        (FetchFriendArticles env friend maxCount).2 = 3 ∧
        ∃ e, (FetchFriendArticles env friend maxCount).1 = .error (.requestFailed e))) ∧
    (∀ e, env.NewRequest friend.RSS = some e →
      (FetchFriendArticles env friend maxCount).2 = 0 ∧
      (FetchFriendArticles env friend maxCount).1 = .error (.requestFailed e)) := by
  refine ⟨?_, fun hreq => ⟨?_, ?_⟩, ?_⟩
  · rw [fetch_attempts]
    have := requestLoop_attempts_le env friend.RSS (maxRetry + 1) 0
      { resp := none, err := none, attempts := 0 }
    simpa [maxRetry] using this
  · intro k r hk hprev hresp
    have hloop := requestLoop_response env friend.RSS hreq (maxRetry + 1) 0
      { resp := none, err := none, attempts := 0 } k r (by unfold maxRetry; omega)
      (fun j hj => by simpa using hprev j hj) (by simpa using hresp)
    have hfetch := fetch_of_response env friend maxCount _ _ hloop
    constructor
    · rw [fetch_attempts, hloop]
      simp
    · intro hs
      rw [hfetch, if_pos hs]
  · intro herr
    obtain ⟨e, he⟩ := requestLoop_errors env friend.RSS hreq (maxRetry + 1) 0
      { resp := none, err := none, attempts := 0 } (by unfold maxRetry; omega)
      (fun j hj => by simpa using herr j (by unfold maxRetry at hj; omega))
    constructor
    · rw [fetch_attempts, he]
      simp [maxRetry]
    · refine ⟨e, ?_⟩
      unfold FetchFriendArticles
      simp only [he]
  · intro e hreq
    have hloop := requestLoop_no_request env friend.RSS e hreq maxRetry 0
      { resp := none, err := none, attempts := 0 }
    constructor
    · rw [fetch_attempts, hloop]
    · unfold FetchFriendArticles
      simp only [hloop]

/-- C18 with two transport errors and then a response with status 503: three attempts,
and the error of the status. -/
theorem C18_retry_witness :
    (FetchFriendArticles (retryEnv 503 []) someFriend 5).2 = 3 ∧
      (FetchFriendArticles (retryEnv 503 []) someFriend 5).1 = .error (.badStatus 503) :=
  ⟨(((C18_retry_on_transport_error_only (retryEnv 503 []) someFriend 5).2.1 rfl).1 2
      { StatusCode := 503, Body := lit "feed" } (by decide)
      (fun j hj => ⟨lit "timeout", by
        have : j = 0 ∨ j = 1 := by omega
        rcases this with h | h <;> subst h <;> rfl⟩) rfl).1,
    (((C18_retry_on_transport_error_only (retryEnv 503 []) someFriend 5).2.1 rfl).1 2
      { StatusCode := 503, Body := lit "feed" } (by decide)
      (fun j hj => ⟨lit "timeout", by
        have : j = 0 ∨ j = 1 := by omega
        rcases this with h | h <;> subst h <;> rfl⟩) rfl).2 (by decide)⟩

/-! ## Properties of the rate limiter: blocks and sweeps, keys -/

/-- After two requests of a fresh key at one instant, whatever the block duration: the
bucket is empty, no block is recorded, and the last access is that instant. -/
theorem after_two_requests_any (d : Int) (ip : GoString) (t : Int) (s0 : LimiterState)
    (hl : SyncMap.Load s0.ipLimiters (makeKey ip 2) = none)
    (hb : SyncMap.Load s0.ipBlockedUntil (makeKey ip 2) = none) :
    SyncMap.Load (RateLimit 2 d ip t (RateLimit 2 d ip t s0).2).2.ipLimiters (makeKey ip 2) =
      some ⟨2, 2, 0, t⟩ ∧
    SyncMap.Load (RateLimit 2 d ip t (RateLimit 2 d ip t s0).2).2.ipBlockedUntil
      (makeKey ip 2) = none ∧
    SyncMap.Load (RateLimit 2 d ip t (RateLimit 2 d ip t s0).2).2.ipLastAccess
      (makeKey ip 2) = some t := by
  have hp : (0 : Int) < 2 := by decide
  have g1 : (getLimiter (makeKey ip 2) 2 maxBurst s0.ipLimiters).1 = NewLimiter 2 2 := by
    rw [getLimiter_new _ _ _ _ hl]; rfl
  obtain ⟨l1, a1, _⟩ := rateLimit_unblocked_loads 2 d ip t s0 hp
    (by intro b h; rw [hb] at h; cases h)
  rw [g1, allow_full] at l1 a1
  obtain ⟨_, b1, _⟩ := a1 rfl
  have g2 : (getLimiter (makeKey ip 2) 2 maxBurst
      (RateLimit 2 d ip t s0).2.ipLimiters).1 = ⟨2, 2, 1000000000, t⟩ := by
    rw [getLimiter_found _ _ _ _ _ l1]
  obtain ⟨l2, a2, _⟩ := rateLimit_unblocked_loads 2 d ip t
    (RateLimit 2 d ip t s0).2 hp (by intro b h; rw [b1] at h; cases h)
  rw [g2, allow_same_instant _ _ (by omega)] at l2 a2
  simp only [le_refl, if_true, Nat.sub_self] at l2 a2
  obtain ⟨_, b2, la2⟩ := a2 trivial
  exact ⟨l2, b2, la2⟩

theorem dayBlocked_loads :
    SyncMap.Load dayBlocked.ipLimiters (makeKey clientIP 2) = some ⟨2, 2, 0, 0⟩ ∧
    SyncMap.Load dayBlocked.ipBlockedUntil (makeKey clientIP 2) = some (1 + triggerBlock) ∧
    SyncMap.Load dayBlocked.ipLastAccess (makeKey clientIP 2) = some 0 := by
  obtain ⟨l2, b2, la2⟩ := after_two_requests_any triggerBlock clientIP 0 emptyState rfl rfl
  obtain ⟨l3, _, a3⟩ := rateLimit_unblocked_loads 2 triggerBlock clientIP 1 dayTwoRequests
    (by decide) (by intro b h; rw [show SyncMap.Load dayTwoRequests.ipBlockedUntil
      (makeKey clientIP 2) = none from b2] at h; cases h)
  rw [getLimiter_found _ _ _ _ _ (show SyncMap.Load dayTwoRequests.ipLimiters
    (makeKey clientIP 2) = some ⟨2, 2, 0, 0⟩ from l2)] at l3 a3
  have ha : ((⟨2, 2, 0, 0⟩ : Limiter).Allow 1) = (false, ⟨2, 2, 0, 0⟩) := by decide
  rw [ha] at l3 a3
  obtain ⟨_, b3, e3⟩ := a3 rfl
  refine ⟨l3, b3, ?_⟩
  show SyncMap.Load (RateLimit 2 triggerBlock clientIP 1 dayTwoRequests).2.ipLastAccess _ = _
  rw [e3]
  exact la2

theorem dayStillBlocked_eq :
    (RateLimit 2 triggerBlock clientIP (10 * minute) dayBlocked) =
      (.abort429 (1 + triggerBlock), dayBlocked) ∧
    (RateLimit 2 triggerBlock clientIP (20 * minute) dayBlocked) =
      (.abort429 (1 + triggerBlock), dayBlocked) ∧
    dayStillBlocked = dayBlocked := by
  have b := dayBlocked_loads.2.1
  have e1 := rateLimit_blocked 2 triggerBlock clientIP (10 * minute) dayBlocked
    (1 + triggerBlock) (by decide) b (by decide)
  have e2 := rateLimit_blocked 2 triggerBlock clientIP (20 * minute) dayBlocked
    (1 + triggerBlock) (by decide) b (by decide)
  refine ⟨e1, e2, ?_⟩
  unfold dayStillBlocked
  rw [e1]
  simp only []
  rw [e2]

theorem daySwept_loads :
    SyncMap.Load daySwept.ipLimiters (makeKey clientIP 2) = none ∧
    SyncMap.Load daySwept.ipLastAccess (makeKey clientIP 2) = none ∧
    SyncMap.Load daySwept.ipBlockedUntil (makeKey clientIP 2) = none := by
  obtain ⟨l, _, la⟩ := dayBlocked_loads
  unfold daySwept cleanupTick
  rw [dayStillBlocked_eq.2.2]
  apply foldl_deleteKey_of_mem
  rw [mem_foldl_collectExpired]
  refine Or.inr ⟨(load_ne_none_iff_mem_keys _ _).mp (by rw [l]; simp), ?_⟩
  intro t ht
  rw [la] at ht
  cases ht
  decide

/-- C19: at the trigger endpoint (rate 2 per second, block 24 h, TTL 15 min) the client
makes two requests at time 0 and a third one nanosecond later, which is rejected and
blocks it until `1 ns + 24 h`; its requests 10 and 20 minutes in are rejected with that
block time and leave the last access at 0; the sweep 30 minutes in, long before the
block time, deletes the block record with the other entries of the key; and the client's
request 31 minutes in is let through. -/
theorem C19_sweep_lifts_block_early :
    SyncMap.Load dayBlocked.ipBlockedUntil (makeKey clientIP 2) = some (1 + triggerBlock) ∧
    (RateLimit 2 triggerBlock clientIP (10 * minute) dayBlocked).1 =
      .abort429 (1 + triggerBlock) ∧
    (RateLimit 2 triggerBlock clientIP (20 * minute)
      (RateLimit 2 triggerBlock clientIP (10 * minute) dayBlocked).2).1 =
      .abort429 (1 + triggerBlock) ∧
    SyncMap.Load dayStillBlocked.ipBlockedUntil (makeKey clientIP 2) =
      some (1 + triggerBlock) ∧
    SyncMap.Load dayStillBlocked.ipLastAccess (makeKey clientIP 2) = some 0 ∧
    sweepTTL < triggerBlock ∧
    30 * minute < 1 + triggerBlock ∧
    SyncMap.Load daySwept.ipBlockedUntil (makeKey clientIP 2) = none ∧
    (RateLimit 2 triggerBlock clientIP (31 * minute) daySwept).1 = .next ∧
    31 * minute < 1 + triggerBlock := by
  obtain ⟨l, b, la⟩ := dayBlocked_loads
  obtain ⟨e1, e2, e3⟩ := dayStillBlocked_eq
  obtain ⟨sl, _, sb⟩ := daySwept_loads
  refine ⟨b, by rw [e1], by rw [e1]; simp only []; rw [e2], by rw [e3]; exact b,
    by rw [e3]; exact la, by decide, by decide, sb, ?_, by decide⟩
  obtain ⟨_, a, _⟩ := rateLimit_unblocked_loads 2 triggerBlock clientIP (31 * minute) daySwept
    (by decide) (by intro b' h; rw [sb] at h; cases h)
  have g : (getLimiter (makeKey clientIP 2) 2 maxBurst daySwept.ipLimiters).1 =
      NewLimiter 2 2 := by
    rw [getLimiter_new _ _ _ _ sl]; rfl
  rw [g, allow_full] at a
  exact (a rfl).1

/-! ### Keys -/

theorem digitChar_cases (d : Nat) (hd : d < 10) :
    digitValue (digitChar d) = d ∧ digitChar d ≠ GoChar.rune '-' ∧
      digitChar d ≠ GoChar.rune '|' := by
  interval_cases d <;> decide

theorem digitValue_digits (n : Nat) :
    (((Nat.digits 10 n).reverse.map digitChar).map digitValue).reverse = Nat.digits 10 n := by
  rw [List.map_map]
  have : (Nat.digits 10 n).reverse.map (digitValue ∘ digitChar) = (Nat.digits 10 n).reverse := by
    conv_rhs => rw [← List.map_id (Nat.digits 10 n).reverse]
    apply List.map_congr_left
    intro d hd
    have hlt : d < 10 := Nat.digits_lt_base (by decide) (List.mem_reverse.mp hd)
    simpa using (digitChar_cases d hlt).1
  rw [this, List.reverse_reverse]

/-- The text written for an integer stands for that integer. -/
theorem parseInt_formatInt (i : Int) : parseInt (formatInt i) = i := by
  unfold formatInt
  split
  · rename_i hneg
    show parseInt (GoChar.rune '-' :: (Nat.digits 10 i.natAbs).reverse.map digitChar) = i
    unfold parseInt
    simp only [if_true]
    rw [digitValue_digits, Nat.ofDigits_digits]
    omega
  · split
    · rename_i h0
      subst h0
      decide
    · rename_i hnn h0
      have hpos : 0 < i.toNat := by omega
      have hne : Nat.digits 10 i.toNat ≠ [] := by
        intro h
        have := Nat.ofDigits_digits 10 i.toNat
        rw [h] at this
        simp at this
        omega
      cases hs : (Nat.digits 10 i.toNat).reverse.map digitChar with
      | nil =>
        exfalso
        simp at hs
        exact hne hs
      | cons c rest =>
        have hc : c ≠ GoChar.rune '-' := by
          have hm : c ∈ (Nat.digits 10 i.toNat).reverse.map digitChar := by rw [hs]; simp
          obtain ⟨d, hd, rfl⟩ := List.mem_map.mp hm
          exact (digitChar_cases d
            (Nat.digits_lt_base (by decide) (List.mem_reverse.mp hd))).2.1
        unfold parseInt
        simp only [hc, if_false]
        rw [← hs, digitValue_digits, Nat.ofDigits_digits]
        omega

theorem bar_not_mem_formatInt (i : Int) : GoChar.rune '|' ∉ formatInt i := by
  have digits : ∀ n : Nat, GoChar.rune '|' ∉ (Nat.digits 10 n).reverse.map digitChar := by
    intro n hm
    obtain ⟨d, hd, he⟩ := List.mem_map.mp hm
    exact (digitChar_cases d
      (Nat.digits_lt_base (by decide) (List.mem_reverse.mp hd))).2.2 he
  unfold formatInt
  split
  · intro hm
    rcases List.mem_append.mp hm with h | h
    · simp [lit] at h
    · exact digits _ h
  · split
    · simp [lit]
    · exact digits _

/-- Keys are the same only for the same trimmed client and the same rate. -/
theorem makeKey_injective (ip ip' : GoString) (rate rate' : Int)
    (h : makeKey ip rate = makeKey ip' rate') :
    TrimSpace ip = TrimSpace ip' ∧ rate = rate' := by
  unfold makeKey at h
  have e : ∀ (a f : GoString), a ++ lit "|" ++ f = a ++ GoChar.rune '|' :: f := by
    intro a f; simp [lit]
  simp only [e] at h
  rcases split_cases h with ⟨h1, _, h3⟩ | ⟨c, _, hc⟩ | ⟨c, _, hc⟩
  · refine ⟨h1, ?_⟩
    have := congrArg parseInt h3
    rwa [parseInt_formatInt, parseInt_formatInt] at this
  · exact absurd (by rw [hc]; simp) (bar_not_mem_formatInt rate)
  · exact absurd (by rw [hc]; simp) (bar_not_mem_formatInt rate')

theorem load_getLimiter_ne (key k : GoString) (perSecond burstMax : Int)
    (m : SyncMap Limiter) (hk : k ≠ key) :
    SyncMap.Load (getLimiter key perSecond burstMax m).2 k = SyncMap.Load m k := by
  cases h : SyncMap.Load m key with
  | some l => rw [getLimiter_found key perSecond burstMax m l h]
  | none =>
    rw [getLimiter_new key perSecond burstMax m h]
    exact load_store_ne _ _ _ _ hk

theorem getLimiter_fst_congr (key : GoString) (perSecond burstMax : Int)
    (m m' : SyncMap Limiter) (h : SyncMap.Load m key = SyncMap.Load m' key) :
    (getLimiter key perSecond burstMax m).1 = (getLimiter key perSecond burstMax m').1 := by
  cases h1 : SyncMap.Load m key with
  | some l =>
    rw [getLimiter_found key perSecond burstMax m l h1,
      getLimiter_found key perSecond burstMax m' l (by rw [← h, h1])]
  | none =>
    rw [getLimiter_new key perSecond burstMax m h1,
      getLimiter_new key perSecond burstMax m' (by rw [← h, h1])]

/-- A request leaves the limiters and the last accesses of all other keys as they are. -/
theorem rateLimit_frame (perSecond : Int) (blockDuration : Int) (ip : GoString)
    (now : Int) (s : LimiterState) (k : GoString) (hk : k ≠ makeKey ip perSecond) :
    SyncMap.Load (RateLimit perSecond blockDuration ip now s).2.ipLimiters k =
      SyncMap.Load s.ipLimiters k ∧
    SyncMap.Load (RateLimit perSecond blockDuration ip now s).2.ipLastAccess k =
      SyncMap.Load s.ipLastAccess k := by
  by_cases hp : perSecond ≤ 0
  · rw [rateLimit_badConfig _ _ _ _ _ hp]
    exact ⟨rfl, rfl⟩
  · have hp' : 0 < perSecond := by omega
    by_cases hb : ∀ b, SyncMap.Load s.ipBlockedUntil (makeKey ip perSecond) = some b → ¬ now < b
    · rw [rateLimit_unblocked perSecond blockDuration ip now s hp' hb]
      simp only [afterBlockCheck_limiters, afterBlockCheck_lastAccess]
      split
      · simp only []
        exact ⟨by rw [load_store_ne _ _ _ _ hk, load_getLimiter_ne _ _ _ _ _ hk], trivial⟩
      · simp only []
        exact ⟨by rw [load_store_ne _ _ _ _ hk, load_getLimiter_ne _ _ _ _ _ hk],
          by rw [load_store_ne _ _ _ _ hk]⟩
    · push_neg at hb
      obtain ⟨b, hb1, hb2⟩ := hb
      rw [rateLimit_blocked _ _ _ _ _ _ hp' hb1 hb2]
      exact ⟨rfl, rfl⟩

/-- The decision on a request depends on the limiter and the block record of its own
key only. -/
theorem rateLimit_decision_congr (perSecond : Int) (blockDuration : Int) (ip : GoString)
    (now : Int) (s s' : LimiterState)
    (hl : SyncMap.Load s.ipLimiters (makeKey ip perSecond) =
      SyncMap.Load s'.ipLimiters (makeKey ip perSecond))
    (hb : SyncMap.Load s.ipBlockedUntil (makeKey ip perSecond) =
      SyncMap.Load s'.ipBlockedUntil (makeKey ip perSecond)) :
    (RateLimit perSecond blockDuration ip now s).1 =
      (RateLimit perSecond blockDuration ip now s').1 := by
  by_cases hp : perSecond ≤ 0
  · rw [rateLimit_badConfig _ _ _ _ _ hp, rateLimit_badConfig _ _ _ _ _ hp]
  · have hp' : 0 < perSecond := by omega
    by_cases hblk : ∀ b, SyncMap.Load s.ipBlockedUntil (makeKey ip perSecond) = some b →
        ¬ now < b
    · have hblk' : ∀ b, SyncMap.Load s'.ipBlockedUntil (makeKey ip perSecond) = some b →
          ¬ now < b := by
        intro b h; exact hblk b (by rw [hb, h])
      rw [rateLimit_unblocked perSecond blockDuration ip now s hp' hblk,
        rateLimit_unblocked perSecond blockDuration ip now s' hp' hblk']
      simp only [afterBlockCheck_limiters]
      rw [getLimiter_fst_congr _ perSecond maxBurst s.ipLimiters s'.ipLimiters hl]
      split <;> rfl
    · push_neg at hblk
      obtain ⟨b, hb1, hb2⟩ := hblk
      rw [rateLimit_blocked _ _ _ _ _ _ hp' hb1 hb2,
        rateLimit_blocked _ _ _ _ _ _ hp' (by rw [← hb, hb1]) hb2]

/-- C20: two keys are equal only if the trimmed client identifiers and the rates are
equal; a request of key `k` leaves the limiter, the last access and the block record of
every other key as they are; and the decision on a request of another key is the same
after the request of `k` as before it. -/
theorem C20_per_key_isolation (perSecond : Int) (blockDuration : Int) (ip : GoString)
    (now : Int) (s : LimiterState) :
    (∀ (ip' : GoString) (perSecond' : Int),
      makeKey ip perSecond = makeKey ip' perSecond' →
        TrimSpace ip = TrimSpace ip' ∧ perSecond = perSecond') ∧
    (∀ k, k ≠ makeKey ip perSecond →
      SyncMap.Load (RateLimit perSecond blockDuration ip now s).2.ipLimiters k =
        SyncMap.Load s.ipLimiters k ∧
      SyncMap.Load (RateLimit perSecond blockDuration ip now s).2.ipLastAccess k =
        SyncMap.Load s.ipLastAccess k ∧
      SyncMap.Load (RateLimit perSecond blockDuration ip now s).2.ipBlockedUntil k =
        SyncMap.Load s.ipBlockedUntil k) ∧
    (∀ (ip' : GoString) (perSecond' blockDuration' now' : Int),
      makeKey ip' perSecond' ≠ makeKey ip perSecond →
        (RateLimit perSecond' blockDuration' ip' now'
          (RateLimit perSecond blockDuration ip now s).2).1 =
        (RateLimit perSecond' blockDuration' ip' now' s).1) := by
  refine ⟨fun ip' perSecond' h => makeKey_injective ip ip' perSecond perSecond' h, ?_, ?_⟩
  · intro k hk
    obtain ⟨h1, h2⟩ := rateLimit_frame perSecond blockDuration ip now s k hk
    exact ⟨h1, h2, rateLimit_block_frame perSecond blockDuration ip now s k hk⟩
  · intro ip' perSecond' blockDuration' now' hk
    apply rateLimit_decision_congr
    · exact (rateLimit_frame perSecond blockDuration ip now s _ hk).1
    · exact rateLimit_block_frame perSecond blockDuration ip now s _ hk

end Fcircle
